import Mathlib

/-!
Verification of the core pixel-grid algorithms of the mel_canny repository.

The algorithmic core lives in the JavaScript fragments templated into the
two Python scripts:

* src/main.py (function runProcessing): binarization by strict threshold,
  optional horizontal morphological dilation, and iterative Zhang-Suen
  thinning with a hard cap of 100 iterations;
* src/main_f0.py (function runCVAlgorithm): a greedy, windowed,
  column-by-column best-candidate path tracer over the intensity grid.

This file embeds those algorithms as executable Lean definitions and proves
the documented properties about them.
-/

namespace MelCanny

/-- A dense 2-D binary grid, modelling the flat JS array
`binaryMap = new Uint8Array(width * height)` of 0/1 values used by
runProcessing in src/main.py.  The flat array content is packed as the
bits of a natural number: bit `y * width + x` holds the 0/1 value
`binaryMap[y * width + x]`. -/
structure Grid where
  width : Nat
  height : Nat
  data : Nat
  deriving DecidableEq

/-- Read the 0/1 value stored at flat index `i` (JS `binaryMap[i]`). -/
def getPx (g : Grid) (i : Nat) : Nat :=
  bif g.data.testBit i then 1 else 0

/-- Eagerly read the 0/1 value at flat index `i` and hand it to the
continuation, mirroring the eager JS binding `let p2 = binaryMap[...]`. -/
def withPx (g : Grid) (i : Nat) (k : Nat → Bool) : Bool :=
  bif g.data.testBit i then k 1 else k 0

/-- Set the 0/1 value at flat index `i` to 1 (JS `map[i] = 1`). -/
def setPx (d : Nat) (i : Nat) : Nat := d ||| (1 <<< i)

/-- Set the 0/1 value at flat index `i` to 0 (JS `map[i] = 0`). -/
def clearPx (d : Nat) (i : Nat) : Nat :=
  if d.testBit i then d ^^^ (1 <<< i) else d

/-- Binarization step of runProcessing: pixel `i` of the result is 1
exactly when the grayscale intensity exceeds the threshold strictly,
`binaryMap[i] = (val > threshold) ? 1 : 0`.  The intensity raster is
modelled as a function from flat index to 8-bit value. -/
def binarize (w h : Nat) (intensity : Nat → Nat) (threshold : Nat) : Grid :=
  { width := w, height := h,
    data := (List.range (w * h)).foldl
      (fun d i => if intensity i > threshold then setPx d i else d) 0 }

/-- The innermost dilation loop of runProcessing,
`for (let k = -hBias; k <= hBias; k++)`: spread the foreground pixel
`(x, y)` to every `(nx, y)` with `nx = x + k` inside `[0, width)`.  The
offset counter is modelled as `j = 0 .. 2*hBias` with `k = j - hBias`. -/
def dilateSpread (g : Grid) (hBias y x : Nat) (d : Nat) : Nat :=
  (List.range (2 * hBias + 1)).foldl (fun d (j : Nat) =>
    let nx : Int := (x : Int) + (j : Int) - (hBias : Int)
    if 0 ≤ nx ∧ nx < (g.width : Int) then
      setPx d (y * g.width + nx.toNat)
    else d) d

/-- The per-row dilation loop: spread every foreground pixel of row `y`
(`if (binaryMap[y * width + x] === 1)`). -/
def dilateRow (g : Grid) (hBias y : Nat) (d : Nat) : Nat :=
  (List.range g.width).foldl (fun d x =>
    if getPx g (y * g.width + x) == 1 then dilateSpread g hBias y x d
    else d) d

/-- Horizontal morphological dilation of runProcessing: guarded by
`if (hBias > 0)`, so radius 0 returns the input grid unchanged.  For a
positive radius a fresh zero grid (`enhancedMap`) is filled row by row. -/
def dilateHorizontal (g : Grid) (hBias : Nat) : Grid :=
  if hBias = 0 then g else
  { width := g.width, height := g.height,
    data := (List.range g.height).foldl (fun d y => dilateRow g hBias y d) 0 }

/-- Sub-step 1 neighbourhood test of the Zhang-Suen thinning in
runProcessing: from the 0/1 neighbour values `p2..p9` compute
`A` (the sum of the eight 0-to-1 comparisons), `B` (the sum of the
neighbours), `m1 = p2*p4*p6`, `m2 = p4*p6*p8`, and test
`A === 1 && (B >= 2 && B <= 6) && m1 === 0 && m2 === 0`. -/
def cond1core (p2 p3 p4 p5 p6 p7 p8 p9 : Nat) : Bool :=
  let A := (p2 == 0 && p3 == 1).toNat + (p3 == 0 && p4 == 1).toNat +
           (p4 == 0 && p5 == 1).toNat + (p5 == 0 && p6 == 1).toNat +
           (p6 == 0 && p7 == 1).toNat + (p7 == 0 && p8 == 1).toNat +
           (p8 == 0 && p9 == 1).toNat + (p9 == 0 && p2 == 1).toNat
  let B := p2 + p3 + p4 + p5 + p6 + p7 + p8 + p9
  let m1 := p2 * p4 * p6
  let m2 := p4 * p6 * p8
  A == 1 && Nat.ble 2 B && Nat.ble B 6 && m1 == 0 && m2 == 0

/-- Sub-step 2 neighbourhood test: identical to sub-step 1 except for the
corner triplets `m1 = p2*p4*p8` and `m2 = p2*p6*p8`. -/
def cond2core (p2 p3 p4 p5 p6 p7 p8 p9 : Nat) : Bool :=
  let A := (p2 == 0 && p3 == 1).toNat + (p3 == 0 && p4 == 1).toNat +
           (p4 == 0 && p5 == 1).toNat + (p5 == 0 && p6 == 1).toNat +
           (p6 == 0 && p7 == 1).toNat + (p7 == 0 && p8 == 1).toNat +
           (p8 == 0 && p9 == 1).toNat + (p9 == 0 && p2 == 1).toNat
  let B := p2 + p3 + p4 + p5 + p6 + p7 + p8 + p9
  let m1 := p2 * p4 * p8
  let m2 := p2 * p6 * p8
  A == 1 && Nat.ble 2 B && Nat.ble B 6 && m1 == 0 && m2 == 0

/-- Decide whether the interior pixel `(x, y)` is marked for removal by a
sub-step: read the eight neighbours `p2..p9` (clockwise from north, at
exactly the flat indices used by runProcessing) and the pixel itself,
then apply the sub-step condition
`binaryMap[y*width+x] === 1 && A === 1 && ...`. -/
def zsCond (c : Nat → Nat → Nat → Nat → Nat → Nat → Nat → Nat → Bool)
    (g : Grid) (x y : Nat) : Bool :=
  withPx g ((y-1) * g.width + x)      fun p2 =>
  withPx g ((y-1) * g.width + x + 1)  fun p3 =>
  withPx g (y * g.width + x + 1)      fun p4 =>
  withPx g ((y+1) * g.width + x + 1)  fun p5 =>
  withPx g ((y+1) * g.width + x)      fun p6 =>
  withPx g ((y+1) * g.width + x - 1)  fun p7 =>
  withPx g (y * g.width + x - 1)      fun p8 =>
  withPx g ((y-1) * g.width + x - 1)  fun p9 =>
  withPx g (y * g.width + x)          fun p =>
  p == 1 && c p2 p3 p4 p5 p6 p7 p8 p9

/-- One full scan of the interior pixels (`for y = 1; y < height-1` and
`for x = 1; x < width-1`), collecting the flat indices `y*width + x` of
the pixels satisfying the sub-step condition
(`markers.push(y*width+x)`). -/
def collectMarkers (c : Nat → Nat → Nat → Nat → Nat → Nat → Nat → Nat → Bool)
    (g : Grid) : List Nat :=
  (List.range' 1 (g.height - 2)).flatMap fun y =>
    ((List.range' 1 (g.width - 2)).filter fun x => zsCond c g x y).map
      fun x => y * g.width + x

/-- Remove all marked pixels only after the full scan
(`for (i...) binaryMap[markers[i]] = 0`). -/
def removeMarkers (g : Grid) (ms : List Nat) : Grid :=
  { g with data := ms.foldl clearPx g.data }

/-- One sub-step: a full marking scan followed by removal; also reports
whether any pixel was marked
(`if (markers.length > 0) pixelsRemoved = true`). -/
def subStep (c : Nat → Nat → Nat → Nat → Nat → Nat → Nat → Nat → Bool)
    (g : Grid) : Grid × Bool :=
  let ms := collectMarkers c g
  (removeMarkers g ms, !ms.isEmpty)

/-- One full pass of the thinning loop body: sub-step 1, then sub-step 2 on
the already-updated grid; reports whether either sub-step marked pixels. -/
def zsPass (g : Grid) : Grid × Bool :=
  let s1 := subStep cond1core g
  let s2 := subStep cond2core s1.1
  (s2.1, s1.2 || s2.2)

/-- The convergence loop of runProcessing,
`while (pixelsRemoved && iterCount < maxIters) { iterCount++; ...pass... }`,
written as structural recursion on the remaining iteration budget
`fuel = maxIters - iterCount`.  Returns the final grid together with the
JS counter `iterCount`. -/
def thinFuel : Nat → Grid → Nat → Grid × Nat
  | 0, g, iterCount => (g, iterCount)
  | fuel+1, g, iterCount =>
      let p := zsPass g
      if p.2 then thinFuel fuel p.1 (iterCount + 1) else (p.1, iterCount + 1)

/-- Zhang-Suen thinning of src/main.py: iterate full passes starting from
`pixelsRemoved = true`, `iterCount = 0`, with the hard cap
`maxIters = 100`. -/
def thin (g : Grid) : Grid × Nat := thinFuel 100 g 0

/-- Build a grid from a list of foreground cells given as (x, y) pairs
(test fixture helper). -/
def ofCells (w h : Nat) (cells : List (Nat × Nat)) : Grid :=
  { width := w, height := h,
    data := cells.foldl (fun d c => setPx d (c.2 * w + c.1)) 0 }

end MelCanny

namespace F0

/-- The intensity raster handed to runCVAlgorithm in src/main_f0.py:
`specData[y][x]` is the normalized mel energy of frequency row `y` at
time column `x`, modelled as a total function to exact rationals. -/
structure SpecGrid where
  width : Nat
  height : Nat
  val : Nat → Nat → ℚ

/-- The body of the inner column scan of runCVAlgorithm.  A cell competes
only when `val > threshold` (strict); `score` is just the raw value,
because the distance-penalty line of the source
(`score -= (dist * (maxJump / 100.0))`) is commented out; the update is
`if (score > maxEnergy) { maxEnergy = score; bestY = y; }`. -/
def scanStep (sd : SpecGrid) (threshold : ℚ) (x : Nat)
    (acc : Option Nat × ℚ) (y : Nat) : Option Nat × ℚ :=
  let v := sd.val y x
  if v > threshold then
    let score := v
    if score > acc.2 then (some y, score) else acc
  else acc

/-- The inner column scan of runCVAlgorithm: fold over
`y = searchStart .. searchEnd-1`, keeping `(bestY, maxEnergy)`, starting
from `bestY = -1` (modelled as `none`) and `maxEnergy = -1`. -/
def scanColumn (sd : SpecGrid) (threshold : ℚ) (x s e : Nat) :
    Option Nat × ℚ :=
  (List.range' s (e - s)).foldl (scanStep sd threshold x) (none, -1)

/-- The search range of a column: the whole height when no previous row is
being tracked (`prevY === -1`), otherwise
`searchStart = Math.max(0, prevY - searchWindow)`,
`searchEnd = Math.min(height, prevY + searchWindow)`. -/
def nextRange (sd : SpecGrid) (searchWindow : Nat) :
    Option Nat → Nat × Nat
  | none => (0, sd.height)
  | some p =>
      (((p : Int) - (searchWindow : Int)).toNat,
        min sd.height (p + searchWindow))

/-- The path tracer of runCVAlgorithm: scan columns left to right, tracking
`prevY`.  A found `bestY` becomes the column entry and the new `prevY`;
when nothing in range exceeds the threshold the entry is `none` and
`prevY` resets to `-1` (`none`).  The `maxJump` slider value is read by
the source (`const maxJump = parseInt(sliderPenalty.value)`) but, with the
penalty line commented out, never used. -/
def runCVAlgorithm (sd : SpecGrid) (threshold : ℚ)
    (maxJump searchWindow : Nat) : List (Option Nat) :=
  ((List.range sd.width).foldl
    (fun (acc : List (Option Nat) × Option Nat) x =>
      let r := nextRange sd searchWindow acc.2
      let best := (scanColumn sd threshold x r.1 r.2).1
      (acc.1 ++ [best], best))
    ([], none)).1

end F0

namespace MelCanny

/-- Bit `n` of the literal 1. -/
theorem testBit_one (n : Nat) : Nat.testBit 1 n = decide (n = 0) := by
  rcases n with _ | n
  · rfl
  · have h : decide (n + 1 = 0) = false := by simp
    rw [h, ← Bool.not_eq_true]
    simp [Nat.testBit_one_eq_true_iff_self_eq_zero]

/-- Bit `j` of the mask `1 <<< i`. -/
theorem testBit_one_shiftLeft (i j : Nat) : (1 <<< i).testBit j = (i == j) := by
  rw [Nat.testBit_shiftLeft, testBit_one]
  by_cases h : i = j
  · subst h; simp
  · have h1 : (i == j) = false := by simp [h]
    rw [h1]
    by_cases h2 : i ≤ j
    · have h3 : ¬ (j - i = 0) := by omega
      simp [h2, h3]
    · have h2d : ¬ (j ≥ i) := h2
      simp [h2d]

/-- Setting pixel `i` sets exactly bit `i`. -/
theorem testBit_setPx (d i j : Nat) :
    (setPx d i).testBit j = (d.testBit j || i == j) := by
  unfold setPx
  rw [Nat.testBit_lor, testBit_one_shiftLeft]

/-- Clearing pixel `i` clears exactly bit `i`. -/
theorem testBit_clearPx (d i j : Nat) :
    (clearPx d i).testBit j = (d.testBit j && !(i == j)) := by
  unfold clearPx
  by_cases hb : d.testBit i
  · rw [if_pos hb, Nat.testBit_xor, testBit_one_shiftLeft]
    by_cases h : i = j
    · subst h; simp [hb]
    · have h1 : (i == j) = false := by simp [h]
      rw [h1]
      simp
  · rw [if_neg hb]
    by_cases h : i = j
    · subst h
      simp at hb
      simp [hb]
    · have h1 : (i == j) = false := by simp [h]
      rw [h1]
      simp

/-- Clearing all indices of a list clears exactly the listed bits. -/
theorem testBit_foldl_clearPx (ms : List Nat) (d j : Nat) :
    (ms.foldl clearPx d).testBit j = (d.testBit j && !ms.any (· == j)) := by
  induction ms generalizing d with
  | nil => simp
  | cons a t ih =>
      simp only [List.foldl_cons, List.any_cons, ih, testBit_clearPx]
      cases d.testBit j <;> cases h : a == j <;> simp

/-- Decomposition of a flat index: the column and row are recovered by
division and remainder when the column is in range. -/
theorem flatIdx_inj {w x1 y1 x2 y2 : Nat} (h1 : x1 < w) (h2 : x2 < w)
    (h : y1 * w + x1 = y2 * w + x2) : x1 = x2 ∧ y1 = y2 := by
  have e1 : (y1 * w + x1) % w = x1 := by
    rw [Nat.mul_comm, Nat.mul_add_mod, Nat.mod_eq_of_lt h1]
  have e2 : (y2 * w + x2) % w = x2 := by
    rw [Nat.mul_comm, Nat.mul_add_mod, Nat.mod_eq_of_lt h2]
  have hx : x1 = x2 := by rw [← e1, ← e2, h]
  refine ⟨hx, ?_⟩
  have hw : 0 < w := Nat.lt_of_le_of_lt (Nat.zero_le x1) h1
  have hyy : y1 * w = y2 * w := by omega
  exact Nat.eq_of_mul_eq_mul_right hw hyy

/-- Reading through the eager binding is reading the pixel value. -/
theorem withPx_eq (g : Grid) (i : Nat) (k : Nat → Bool) :
    withPx g i k = k (getPx g i) := by
  unfold withPx getPx
  cases g.data.testBit i <;> simp

/-- The sub-step condition expressed through plain pixel reads. -/
theorem zsCond_eq (c : Nat → Nat → Nat → Nat → Nat → Nat → Nat → Nat → Bool)
    (g : Grid) (x y : Nat) :
    zsCond c g x y =
      (getPx g (y * g.width + x) == 1 &&
        c (getPx g ((y-1) * g.width + x)) (getPx g ((y-1) * g.width + x + 1))
          (getPx g (y * g.width + x + 1)) (getPx g ((y+1) * g.width + x + 1))
          (getPx g ((y+1) * g.width + x)) (getPx g ((y+1) * g.width + x - 1))
          (getPx g (y * g.width + x - 1)) (getPx g ((y-1) * g.width + x - 1))) := by
  unfold zsCond
  simp only [withPx_eq]

/-- Membership in the marker list of a sub-step scan. -/
theorem mem_collectMarkers {c : Nat → Nat → Nat → Nat → Nat → Nat → Nat → Nat → Bool}
    {g : Grid} {i : Nat} :
    i ∈ collectMarkers c g ↔
      ∃ x y, 1 ≤ x ∧ x < 1 + (g.width - 2) ∧ 1 ≤ y ∧ y < 1 + (g.height - 2) ∧
        zsCond c g x y = true ∧ i = y * g.width + x := by
  unfold collectMarkers
  simp only [List.mem_flatMap, List.mem_map, List.mem_filter, List.mem_range'_1]
  constructor
  · rintro ⟨y, ⟨hy1, hy2⟩, x, ⟨⟨hx1, hx2⟩, hc⟩, rfl⟩
    exact ⟨x, y, hx1, hx2, hy1, hy2, hc, rfl⟩
  · rintro ⟨x, y, hx1, hx2, hy1, hy2, hc, rfl⟩
    exact ⟨y, ⟨hy1, hy2⟩, x, ⟨⟨hx1, hx2⟩, hc⟩, rfl⟩

/-- First component of a sub-step. -/
theorem subStep_fst (c : Nat → Nat → Nat → Nat → Nat → Nat → Nat → Nat → Bool)
    (g : Grid) : (subStep c g).1 = removeMarkers g (collectMarkers c g) := rfl

/-- Second component of a sub-step. -/
theorem subStep_snd (c : Nat → Nat → Nat → Nat → Nat → Nat → Nat → Nat → Bool)
    (g : Grid) : (subStep c g).2 = !(collectMarkers c g).isEmpty := rfl

/-- Pointwise description of a sub-step: a pixel is cleared exactly when its
index was marked during the full scan of the pre-sub-step grid. -/
theorem getPx_subStep (c : Nat → Nat → Nat → Nat → Nat → Nat → Nat → Nat → Bool)
    (g : Grid) (i : Nat) :
    getPx (subStep c g).1 i =
      if i ∈ collectMarkers c g then 0 else getPx g i := by
  rw [subStep_fst]
  unfold removeMarkers getPx
  simp only
  rw [testBit_foldl_clearPx]
  by_cases hm : i ∈ collectMarkers c g
  · have ha : (collectMarkers c g).any (· == i) = true :=
      List.any_eq_true.2 ⟨i, hm, by simp⟩
    simp [hm, ha]
  · have ha : (collectMarkers c g).any (· == i) = false := by
      rw [List.any_eq_false]
      intro a haa hai
      have : a = i := by simpa using hai
      exact hm (this ▸ haa)
    simp [hm, ha]

/-- Unfolding equation of the loop at exhausted budget (`iterCount` reached
`maxIters`): the current grid and counter are returned as they are. -/
theorem thinFuel_zero (g : Grid) (iterCount : Nat) :
    thinFuel 0 g iterCount = (g, iterCount) := rfl

/-- Unfolding equation of one loop entry: run a pass, continue when it
removed pixels, stop otherwise. -/
theorem thinFuel_succ (fuel : Nat) (g : Grid) (iterCount : Nat) :
    thinFuel (fuel + 1) g iterCount =
      if (zsPass g).2 then thinFuel fuel (zsPass g).1 (iterCount + 1)
      else ((zsPass g).1, iterCount + 1) := rfl

/-- The loop counter never exceeds the starting counter plus the budget. -/
theorem thinFuel_snd_le (fuel : Nat) :
    ∀ g iterCount, (thinFuel fuel g iterCount).2 ≤ iterCount + fuel := by
  induction fuel with
  | zero => intro g it; simp [thinFuel_zero]
  | succ f ih =>
      intro g it
      rw [thinFuel_succ]
      by_cases h : (zsPass g).2
      · rw [if_pos h]
        have := ih (zsPass g).1 (it + 1)
        omega
      · rw [if_neg h]
        simp

/-- The removal flag of a pass, spelled out: some pixel was marked in
sub-step 1 or in sub-step 2 (run on the sub-step-1 output). -/
theorem zsPass_snd_eq (g : Grid) :
    (zsPass g).2 =
      (!(collectMarkers cond1core g).isEmpty ||
        !(collectMarkers cond2core (subStep cond1core g).1).isEmpty) := rfl

/-- A pass that marked nothing changed nothing. -/
theorem zsPass_of_not_removed (g : Grid) (h : (zsPass g).2 = false) :
    zsPass g = (g, false) := by
  have h1 : (collectMarkers cond1core g).isEmpty = true := by
    rw [zsPass_snd_eq] at h
    cases e : (collectMarkers cond1core g).isEmpty
    · rw [e] at h; simp at h
    · rfl
  have h2 : (collectMarkers cond2core (subStep cond1core g).1).isEmpty = true := by
    rw [zsPass_snd_eq] at h
    cases e : (collectMarkers cond2core (subStep cond1core g).1).isEmpty
    · rw [e] at h; simp at h
    · rfl
  have e1 : (subStep cond1core g).1 = g := by
    rw [subStep_fst, List.isEmpty_iff.mp h1]
    rfl
  have e2 : (subStep cond2core (subStep cond1core g).1).1 = g := by
    rw [subStep_fst, List.isEmpty_iff.mp h2, e1]
    rfl
  have : zsPass g = ((subStep cond2core (subStep cond1core g).1).1, (zsPass g).2) := rfl
  rw [this, e2, h]

/-- Sub-steps keep the grid dimensions. -/
theorem subStep_width (c : Nat → Nat → Nat → Nat → Nat → Nat → Nat → Nat → Bool)
    (g : Grid) : (subStep c g).1.width = g.width := rfl

/-- Sub-steps keep the grid dimensions. -/
theorem subStep_height (c : Nat → Nat → Nat → Nat → Nat → Nat → Nat → Nat → Bool)
    (g : Grid) : (subStep c g).1.height = g.height := rfl

/-- Passes keep the grid dimensions. -/
theorem zsPass_width (g : Grid) : (zsPass g).1.width = g.width := rfl

/-- Passes keep the grid dimensions. -/
theorem zsPass_height (g : Grid) : (zsPass g).1.height = g.height := rfl

/-- The loop keeps the grid dimensions. -/
theorem thinFuel_width (fuel : Nat) :
    ∀ g iterCount, (thinFuel fuel g iterCount).1.width = g.width := by
  induction fuel with
  | zero => intro g it; rfl
  | succ f ih =>
      intro g it
      rw [thinFuel_succ]
      by_cases h : (zsPass g).2
      · rw [if_pos h, ih, zsPass_width]
      · rw [if_neg h]
        exact zsPass_width g

/-- The loop keeps the grid dimensions. -/
theorem thinFuel_height (fuel : Nat) :
    ∀ g iterCount, (thinFuel fuel g iterCount).1.height = g.height := by
  induction fuel with
  | zero => intro g it; rfl
  | succ f ih =>
      intro g it
      rw [thinFuel_succ]
      by_cases h : (zsPass g).2
      · rw [if_pos h, ih, zsPass_height]
      · rw [if_neg h]
        exact zsPass_height g

/-- Border pixels survive a sub-step: the marking scan only visits interior
coordinates, whose flat indices differ from every border index. -/
theorem getPx_subStep_border (c : Nat → Nat → Nat → Nat → Nat → Nat → Nat → Nat → Bool)
    (g : Grid) (x y : Nat) (hx : x < g.width) (hy : y < g.height)
    (hb : x = 0 ∨ x = g.width - 1 ∨ y = 0 ∨ y = g.height - 1) :
    getPx (subStep c g).1 (y * g.width + x) = getPx g (y * g.width + x) := by
  rw [getPx_subStep, if_neg]
  intro hm
  rcases mem_collectMarkers.mp hm with ⟨x', y', hx1, hx2, hy1, hy2, _, heq⟩
  have hx' : x' < g.width := by omega
  obtain ⟨hxx, hyy⟩ := flatIdx_inj hx hx' heq
  omega

/-- Border pixels survive a full pass. -/
theorem getPx_zsPass_border (g : Grid) (x y : Nat)
    (hx : x < g.width) (hy : y < g.height)
    (hb : x = 0 ∨ x = g.width - 1 ∨ y = 0 ∨ y = g.height - 1) :
    getPx (zsPass g).1 (y * g.width + x) = getPx g (y * g.width + x) := by
  have e : (zsPass g).1 = (subStep cond2core (subStep cond1core g).1).1 := rfl
  rw [e]
  have h1 := getPx_subStep_border cond1core g x y hx hy hb
  have h2 := getPx_subStep_border cond2core (subStep cond1core g).1 x y
    (by rw [subStep_width]; exact hx) (by rw [subStep_height]; exact hy)
    (by rw [subStep_width, subStep_height]; exact hb)
  rw [subStep_width] at h2
  rw [h2, h1]

/-- Border pixels survive the whole loop, whatever the budget. -/
theorem getPx_thinFuel_border (fuel : Nat) :
    ∀ g iterCount x y, x < g.width → y < g.height →
      (x = 0 ∨ x = g.width - 1 ∨ y = 0 ∨ y = g.height - 1) →
      getPx (thinFuel fuel g iterCount).1 (y * g.width + x) =
        getPx g (y * g.width + x) := by
  induction fuel with
  | zero => intro g it x y _ _ _; rfl
  | succ f ih =>
      intro g it x y hx hy hb
      rw [thinFuel_succ]
      by_cases h : (zsPass g).2
      · rw [if_pos h]
        have hrec := ih (zsPass g).1 (it + 1) x y
          (by rw [zsPass_width]; exact hx) (by rw [zsPass_height]; exact hy)
          (by rw [zsPass_width, zsPass_height]; exact hb)
        rw [zsPass_width] at hrec
        rw [hrec]
        exact getPx_zsPass_border g x y hx hy hb
      · rw [if_neg h]
        exact getPx_zsPass_border g x y hx hy hb

/-- Bits produced by a conditional set-pixel fold: exactly the initial bits
plus the indices contributed by the accepted elements. -/
theorem foldl_setPx_mem {α : Type} (P : α → Prop) [DecidablePred P] (f : α → Nat)
    (l : List α) (d j : Nat) :
    ((l.foldl (fun d a => if P a then setPx d (f a) else d) d).testBit j = true) ↔
      (d.testBit j = true ∨ ∃ a ∈ l, P a ∧ f a = j) := by
  induction l generalizing d with
  | nil => simp
  | cons a l ih =>
      rw [List.foldl_cons]
      by_cases ha : P a
      · rw [if_pos ha, ih]
        simp only [testBit_setPx, Bool.or_eq_true, beq_iff_eq, List.mem_cons]
        constructor
        · rintro ((h | h) | ⟨b, hb, hPb, hfb⟩)
          · exact Or.inl h
          · exact Or.inr ⟨a, Or.inl rfl, ha, h⟩
          · exact Or.inr ⟨b, Or.inr hb, hPb, hfb⟩
        · rintro (h | ⟨b, (rfl | hb), hPb, hfb⟩)
          · exact Or.inl (Or.inl h)
          · exact Or.inl (Or.inr hfb)
          · exact Or.inr ⟨b, hb, hPb, hfb⟩
      · rw [if_neg ha, ih]
        simp only [List.mem_cons]
        constructor
        · rintro (h | ⟨b, hb, hPb, hfb⟩)
          · exact Or.inl h
          · exact Or.inr ⟨b, Or.inr hb, hPb, hfb⟩
        · rintro (h | ⟨b, (rfl | hb), hPb, hfb⟩)
          · exact Or.inl h
          · exact absurd hPb ha
          · exact Or.inr ⟨b, hb, hPb, hfb⟩

/-- Bits produced by an unconditional set-pixel fold. -/
theorem foldl_setPx_mem_all {α : Type} (f : α → Nat) (l : List α) (d j : Nat) :
    ((l.foldl (fun d a => setPx d (f a)) d).testBit j = true) ↔
      (d.testBit j = true ∨ ∃ a ∈ l, f a = j) := by
  induction l generalizing d with
  | nil => simp
  | cons a l ih =>
      rw [List.foldl_cons, ih]
      simp only [testBit_setPx, Bool.or_eq_true, beq_iff_eq, List.mem_cons]
      constructor
      · rintro ((h | h) | ⟨b, hb, hfb⟩)
        · exact Or.inl h
        · exact Or.inr ⟨a, Or.inl rfl, h⟩
        · exact Or.inr ⟨b, Or.inr hb, hfb⟩
      · rintro (h | ⟨b, (rfl | hb), hfb⟩)
        · exact Or.inl (Or.inl h)
        · exact Or.inl (Or.inr hfb)
        · exact Or.inr ⟨b, hb, hfb⟩

/-- Pointwise description of binarization on in-range indices. -/
theorem getPx_binarize (w h : Nat) (intensity : Nat → Nat) (threshold : Nat)
    (i : Nat) (hi : i < w * h) :
    getPx (binarize w h intensity threshold) i =
      if intensity i > threshold then 1 else 0 := by
  unfold binarize getPx
  simp only
  by_cases hc : intensity i > threshold
  · rw [if_pos hc]
    have : ((List.range (w * h)).foldl
        (fun d i => if intensity i > threshold then setPx d i else d) 0).testBit i
          = true := by
      rw [foldl_setPx_mem (fun i => intensity i > threshold) (fun i => i)]
      exact Or.inr ⟨i, List.mem_range.mpr hi, hc, rfl⟩
    rw [this]
    rfl
  · rw [if_neg hc]
    have : ((List.range (w * h)).foldl
        (fun d i => if intensity i > threshold then setPx d i else d) 0).testBit i
          = false := by
      rw [← Bool.not_eq_true]
      rw [foldl_setPx_mem (fun i => intensity i > threshold) (fun i => i)]
      push_neg
      refine ⟨by simp, ?_⟩
      intro a _ ha hai
      exact absurd (hai ▸ ha) hc
    rw [this]
    rfl

/-- The contribution of the innermost dilation loop at a foreground pixel
`(x, y)`: all in-range horizontal offsets of `x`. -/
def spreadHits (g : Grid) (hBias y x j : Nat) : Prop :=
  ∃ k : Int, -(hBias : Int) ≤ k ∧ k ≤ (hBias : Int) ∧
    0 ≤ (x : Int) + k ∧ (x : Int) + k < (g.width : Int) ∧
    j = y * g.width + ((x : Int) + k).toNat

/-- Bits set by the innermost dilation loop. -/
theorem dilateSpread_mem (g : Grid) (hBias y x d j : Nat) :
    ((dilateSpread g hBias y x d).testBit j = true) ↔
      (d.testBit j = true ∨ spreadHits g hBias y x j) := by
  unfold dilateSpread
  rw [foldl_setPx_mem
    (fun (jj : Nat) => 0 ≤ (x : Int) + (jj : Int) - (hBias : Int) ∧
      (x : Int) + (jj : Int) - (hBias : Int) < (g.width : Int))
    (fun (jj : Nat) => y * g.width + ((x : Int) + (jj : Int) - (hBias : Int)).toNat)]
  constructor
  · rintro (h | ⟨jj, hjj, ⟨h0, hw⟩, hidx⟩)
    · exact Or.inl h
    · have hlt : jj < 2 * hBias + 1 := List.mem_range.mp hjj
      refine Or.inr ⟨(jj : Int) - (hBias : Int), by omega, by omega, by omega, by omega, ?_⟩
      rw [← hidx]
      congr 2
      omega
  · rintro (h | ⟨k, hk1, hk2, h0, hw, hidx⟩)
    · exact Or.inl h
    · refine Or.inr ⟨(k + (hBias : Int)).toNat, List.mem_range.mpr (by omega),
        ⟨by omega, by omega⟩, ?_⟩
      rw [hidx]
      congr 2
      omega

/-- Bits set by the per-row dilation loop. -/
theorem dilateRow_mem (g : Grid) (hBias y d j : Nat) :
    ((dilateRow g hBias y d).testBit j = true) ↔
      (d.testBit j = true ∨ ∃ x < g.width,
        getPx g (y * g.width + x) = 1 ∧ spreadHits g hBias y x j) := by
  unfold dilateRow
  have aux : ∀ (l : List Nat) (d : Nat),
      ((l.foldl (fun d x =>
          if getPx g (y * g.width + x) == 1 then dilateSpread g hBias y x d
          else d) d).testBit j = true) ↔
        (d.testBit j = true ∨ ∃ x ∈ l,
          getPx g (y * g.width + x) = 1 ∧ spreadHits g hBias y x j) := by
    intro l
    induction l with
    | nil => simp
    | cons a l ih =>
        intro d
        rw [List.foldl_cons]
        by_cases ha : getPx g (y * g.width + a) == 1
        · rw [if_pos ha, ih, dilateSpread_mem]
          simp only [List.mem_cons]
          constructor
          · rintro ((h | h) | ⟨b, hb, h1, h2⟩)
            · exact Or.inl h
            · exact Or.inr ⟨a, Or.inl rfl, by simpa using ha, h⟩
            · exact Or.inr ⟨b, Or.inr hb, h1, h2⟩
          · rintro (h | ⟨b, (rfl | hb), h1, h2⟩)
            · exact Or.inl (Or.inl h)
            · exact Or.inl (Or.inr h2)
            · exact Or.inr ⟨b, hb, h1, h2⟩
        · rw [if_neg ha, ih]
          simp only [List.mem_cons]
          constructor
          · rintro (h | ⟨b, hb, h1, h2⟩)
            · exact Or.inl h
            · exact Or.inr ⟨b, Or.inr hb, h1, h2⟩
          · rintro (h | ⟨b, (rfl | hb), h1, h2⟩)
            · exact Or.inl h
            · exact absurd h1 (by simpa using ha)
            · exact Or.inr ⟨b, hb, h1, h2⟩
  rw [aux]
  constructor
  · rintro (h | ⟨x, hx, h1, h2⟩)
    · exact Or.inl h
    · exact Or.inr ⟨x, List.mem_range.mp hx, h1, h2⟩
  · rintro (h | ⟨x, hx, h1, h2⟩)
    · exact Or.inl h
    · exact Or.inr ⟨x, List.mem_range.mpr hx, h1, h2⟩

/-- Bits set by the whole dilation pass over a fresh zero map. -/
theorem dilate_data_mem (g : Grid) (hBias j : Nat) :
    (((List.range g.height).foldl (fun d y => dilateRow g hBias y d) 0).testBit j
        = true) ↔
      ∃ y < g.height, ∃ x < g.width,
        getPx g (y * g.width + x) = 1 ∧ spreadHits g hBias y x j := by
  have aux : ∀ (l : List Nat) (d : Nat),
      ((l.foldl (fun d y => dilateRow g hBias y d) d).testBit j = true) ↔
        (d.testBit j = true ∨ ∃ y ∈ l, ∃ x < g.width,
          getPx g (y * g.width + x) = 1 ∧ spreadHits g hBias y x j) := by
    intro l
    induction l with
    | nil => simp
    | cons a l ih =>
        intro d
        rw [List.foldl_cons, ih, dilateRow_mem]
        simp only [List.mem_cons]
        constructor
        · rintro ((h | h) | ⟨b, hb, h2⟩)
          · exact Or.inl h
          · exact Or.inr ⟨a, Or.inl rfl, h⟩
          · exact Or.inr ⟨b, Or.inr hb, h2⟩
        · rintro (h | ⟨b, (rfl | hb), h2⟩)
          · exact Or.inl (Or.inl h)
          · exact Or.inl (Or.inr h2)
          · exact Or.inr ⟨b, hb, h2⟩
  rw [aux]
  constructor
  · rintro (h | ⟨y, hy, rest⟩)
    · rw [Nat.zero_testBit] at h
      exact absurd h (by simp)
    · exact ⟨y, List.mem_range.mp hy, rest⟩
  · rintro ⟨y, hy, rest⟩
    exact Or.inr ⟨y, List.mem_range.mpr hy, rest⟩

/-- A pixel read is 1 exactly when the backing bit is set. -/
theorem getPx_eq_one (g : Grid) (i : Nat) :
    getPx g i = 1 ↔ g.data.testBit i = true := by
  unfold getPx
  cases h : g.data.testBit i <;> simp [h]

/-- Radius 0 dilation is the identity. -/
theorem dilateHorizontal_zero (g : Grid) : dilateHorizontal g 0 = g := rfl

/-- Pointwise description of horizontal dilation on in-range cells: a cell
is foreground afterwards exactly when some cell at horizontal distance at
most `hBias` (and in bounds) was foreground before. -/
theorem getPx_dilateHorizontal (g : Grid) (hBias x y : Nat)
    (hx : x < g.width) (hy : y < g.height) :
    (getPx (dilateHorizontal g hBias) (y * g.width + x) = 1 ↔
      ∃ k : Int, k.natAbs ≤ hBias ∧ 0 ≤ (x : Int) + k ∧
        (x : Int) + k < (g.width : Int) ∧
        getPx g (y * g.width + ((x : Int) + k).toNat) = 1) := by
  by_cases h0 : hBias = 0
  · subst h0
    rw [dilateHorizontal_zero]
    constructor
    · intro h
      refine ⟨0, by simp, by omega, by omega, ?_⟩
      have : ((x : Int) + 0).toNat = x := by omega
      rw [this]
      exact h
    · rintro ⟨k, hk, h1, h2, h⟩
      have hk0 : k = 0 := by omega
      subst hk0
      have : ((x : Int) + 0).toNat = x := by omega
      rw [this] at h
      exact h
  · unfold dilateHorizontal
    rw [if_neg h0, getPx_eq_one]
    show ((List.range g.height).foldl (fun d y => dilateRow g hBias y d) 0).testBit
        (y * g.width + x) = true ↔ _
    rw [dilate_data_mem]
    constructor
    · rintro ⟨y2, hy2, x2, hx2, hpx, k2, hk1, hk2, hnn, hlt, hidx⟩
      have hn : ((x2 : Int) + k2).toNat < g.width := by omega
      obtain ⟨hxx, hyy⟩ := flatIdx_inj hx hn hidx
      refine ⟨-k2, by omega, by omega, by omega, ?_⟩
      have e : ((x : Int) + -k2).toNat = x2 := by omega
      rw [e, hyy]
      exact hpx
    · rintro ⟨k, hk, hnn, hlt, hpx⟩
      refine ⟨y, hy, ((x : Int) + k).toNat, by omega, hpx, -k, by omega, by omega,
        by omega, by omega, ?_⟩
      congr 1
      omega

/-- C5: for every intensity raster, threshold, and in-range cell, the
binarized cell is 1 exactly when the intensity is strictly greater than
the threshold (equality gives 0). -/
theorem c5_binarize_strict (w h : Nat) (intensity : Nat → Nat) (t : Nat)
    (x y : Nat) (hx : x < w) (hy : y < h) :
    getPx (binarize w h intensity t) (y * w + x) =
      (if intensity (y * w + x) > t then 1 else 0) ∧
    (getPx (binarize w h intensity t) (y * w + x) = 1 ↔
      intensity (y * w + x) > t) := by
  have hi : y * w + x < w * h := by
    have h1 : y * w + x < (y + 1) * w := by
      have : (y + 1) * w = y * w + w := by ring
      omega
    have h2 : (y + 1) * w ≤ h * w := Nat.mul_le_mul_right w hy
    have h3 : h * w = w * h := Nat.mul_comm h w
    omega
  rw [getPx_binarize w h intensity t _ hi]
  constructor
  · rfl
  · by_cases hc : intensity (y * w + x) > t
    · simp [hc]
    · simp [hc]

/-- Witness for C5 at a concrete raster. -/
theorem c5_binarize_strict_witness :
    2 < 3 ∧ 1 < 2 ∧
      (getPx (binarize 3 2 (fun i => 40 * i) 80) (1 * 3 + 2) =
        (if 40 * (1 * 3 + 2) > 80 then 1 else 0) ∧
      (getPx (binarize 3 2 (fun i => 40 * i) 80) (1 * 3 + 2) = 1 ↔
        40 * (1 * 3 + 2) > 80)) :=
  ⟨by decide, by decide,
    c5_binarize_strict 3 2 (fun i => 40 * i) 80 2 1 (by decide) (by decide)⟩

/-- C6: horizontal dilation spreads every foreground cell to every in-bounds
cell at horizontal distance at most the radius, and radius 0 returns a grid
equal to the input. -/
theorem c6_dilate_spreads (m : Grid) (r : Nat) :
    (∀ x y (k : Int), x < m.width → y < m.height →
      getPx m (y * m.width + x) = 1 →
      k.natAbs ≤ r → 0 ≤ (x : Int) + k → (x : Int) + k < (m.width : Int) →
      getPx (dilateHorizontal m r) (y * m.width + ((x : Int) + k).toNat) = 1) ∧
    dilateHorizontal m 0 = m := by
  refine ⟨?_, dilateHorizontal_zero m⟩
  intro x y k hx hy hpx hk hnn hlt
  have hx2 : ((x : Int) + k).toNat < m.width := by omega
  rw [getPx_dilateHorizontal m r (((x : Int) + k).toNat) y hx2 hy]
  refine ⟨-k, by omega, by omega, by omega, ?_⟩
  have e : ((((x : Int) + k).toNat : Int) + -k).toNat = x := by omega
  rw [e]
  exact hpx

/-- Witness for C6: a single foreground pixel at (3, 1) on an 8 x 3 grid,
radius 2, reaches (1, 1). -/
theorem c6_dilate_spreads_witness :
    3 < (ofCells 8 3 [(3, 1)]).width ∧ 1 < (ofCells 8 3 [(3, 1)]).height ∧
    getPx (ofCells 8 3 [(3, 1)]) (1 * (ofCells 8 3 [(3, 1)]).width + 3) = 1 ∧
    getPx (dilateHorizontal (ofCells 8 3 [(3, 1)]) 2)
      (1 * (ofCells 8 3 [(3, 1)]).width + ((3 : Int) + (-2 : Int)).toNat) = 1 :=
  ⟨by decide, by decide, by decide,
    (c6_dilate_spreads (ofCells 8 3 [(3, 1)]) 2).1 3 1 (-2) (by decide) (by decide)
      (by decide) (by decide) (by decide) (by decide)⟩

/-- C10: exact characterization of horizontal dilation: an in-range cell of
the output is foreground exactly when some in-bounds cell at horizontal
distance at most the radius is foreground in the input; no other cell
becomes foreground. -/
theorem c10_dilate_exact (m : Grid) (r x y : Nat)
    (hx : x < m.width) (hy : y < m.height) :
    getPx (dilateHorizontal m r) (y * m.width + x) = 1 ↔
      ∃ k : Int, k.natAbs ≤ r ∧ 0 ≤ (x : Int) + k ∧
        (x : Int) + k < (m.width : Int) ∧
        getPx m (y * m.width + ((x : Int) + k).toNat) = 1 :=
  getPx_dilateHorizontal m r x y hx hy

/-- Witness for C10: on the same fixture, the cell (5, 1) of the dilated
grid is characterized by the existence of an offset reaching (3, 1). -/
theorem c10_dilate_exact_witness :
    5 < (ofCells 8 3 [(3, 1)]).width ∧ 1 < (ofCells 8 3 [(3, 1)]).height ∧
    (getPx (dilateHorizontal (ofCells 8 3 [(3, 1)]) 2)
        (1 * (ofCells 8 3 [(3, 1)]).width + 5) = 1 ↔
      ∃ k : Int, k.natAbs ≤ 2 ∧ 0 ≤ (5 : Int) + k ∧
        (5 : Int) + k < ((ofCells 8 3 [(3, 1)]).width : Int) ∧
        getPx (ofCells 8 3 [(3, 1)])
          (1 * (ofCells 8 3 [(3, 1)]).width + ((5 : Int) + k).toNat) = 1) :=
  ⟨by decide, by decide,
    c10_dilate_exact (ofCells 8 3 [(3, 1)]) 2 5 1 (by decide) (by decide)⟩

/-- C3: the thinning loop is bounded by the hard cap: the returned
iteration count never exceeds 100; an exhausted budget returns the current
(partially thinned) grid with the cap count, which is not an error; a pass
that marks nothing (in the sense that neither sub-step pushed a marker)
makes the loop return immediately. -/
theorem c3_thin_terminates :
    (∀ m : Grid, (thin m).2 ≤ 100) ∧
    (∀ (g : Grid) (iterCount : Nat), thinFuel 0 g iterCount = (g, iterCount)) ∧
    (∀ (fuel : Nat) (g : Grid) (iterCount : Nat),
      thinFuel (fuel + 1) g iterCount =
        if (zsPass g).2 then thinFuel fuel (zsPass g).1 (iterCount + 1)
        else ((zsPass g).1, iterCount + 1)) ∧
    (∀ g : Grid, (zsPass g).2 =
      (!(collectMarkers cond1core g).isEmpty ||
        !(collectMarkers cond2core (subStep cond1core g).1).isEmpty)) := by
  refine ⟨?_, thinFuel_zero, thinFuel_succ, zsPass_snd_eq⟩
  intro m
  have := thinFuel_snd_le 100 m 0
  simpa [thin] using this

/-- C8: thinning never modifies the one-pixel border ring: any cell on the
first or last row or column keeps its input value, both in the final
result and after any number of loop iterations. -/
theorem c8_border_unchanged (m : Grid) (x y : Nat)
    (hx : x < m.width) (hy : y < m.height)
    (hb : x = 0 ∨ x = m.width - 1 ∨ y = 0 ∨ y = m.height - 1) :
    getPx (thin m).1 (y * m.width + x) = getPx m (y * m.width + x) ∧
    ∀ fuel iterCount,
      getPx (thinFuel fuel m iterCount).1 (y * m.width + x) =
        getPx m (y * m.width + x) :=
  ⟨getPx_thinFuel_border 100 m 0 x y hx hy hb,
    fun fuel iterCount => getPx_thinFuel_border fuel m iterCount x y hx hy hb⟩

/-- Witness for C8 at a concrete mask and border cell. -/
theorem c8_border_unchanged_witness :
    0 < (ofCells 4 4 [(1, 1), (2, 1), (1, 2), (0, 0)]).width ∧
    2 < (ofCells 4 4 [(1, 1), (2, 1), (1, 2), (0, 0)]).height ∧
    getPx (thin (ofCells 4 4 [(1, 1), (2, 1), (1, 2), (0, 0)])).1
        (2 * (ofCells 4 4 [(1, 1), (2, 1), (1, 2), (0, 0)]).width + 0) =
      getPx (ofCells 4 4 [(1, 1), (2, 1), (1, 2), (0, 0)])
        (2 * (ofCells 4 4 [(1, 1), (2, 1), (1, 2), (0, 0)]).width + 0) :=
  ⟨by decide, by decide,
    (c8_border_unchanged (ofCells 4 4 [(1, 1), (2, 1), (1, 2), (0, 0)]) 0 2
      (by decide) (by decide) (Or.inl rfl)).1⟩

end MelCanny

namespace F0

/-- C7: the jump-penalty parameter is inert: two runs of the tracer that
differ only in the penalty value produce identical paths (the parameter is
read from the slider but, the penalty line being commented out, never
enters the computation). -/
theorem c7_penalty_inert (sd : SpecGrid) (threshold : ℚ)
    (maxJump1 maxJump2 searchWindow : Nat) :
    runCVAlgorithm sd threshold maxJump1 searchWindow =
      runCVAlgorithm sd threshold maxJump2 searchWindow := rfl

end F0

namespace F0

/-- Spec-side notion: row `y` is a candidate of the scanned range, that is,
it lies in `[s, e)` and its value strictly exceeds the threshold. -/
def qualifies (sd : SpecGrid) (threshold : ℚ) (x s e y : Nat) : Prop :=
  s ≤ y ∧ y < e ∧ sd.val y x > threshold

instance (sd : SpecGrid) (threshold : ℚ) (x s e y : Nat) :
    Decidable (qualifies sd threshold x s e y) := by
  unfold qualifies
  infer_instance

/-- Spec-side notion: `y` is the chosen row of the range, that is, a
candidate whose value is maximal among candidates, with ties broken by the
smallest row index. -/
def isBest (sd : SpecGrid) (threshold : ℚ) (x s e y : Nat) : Prop :=
  qualifies sd threshold x s e y ∧
  ∀ z, z < e → qualifies sd threshold x s e z →
    sd.val z x ≤ sd.val y x ∧ (sd.val z x = sd.val y x → y ≤ z)

instance (sd : SpecGrid) (threshold : ℚ) (x s e y : Nat) :
    Decidable (isBest sd threshold x s e y) := by
  unfold isBest
  infer_instance

/-- Modelled on the specification text: the column entry is the row of the
range maximizing the value subject to the strict threshold, ties broken by
the smallest row index; none when no candidate exists. -/
def specPick (sd : SpecGrid) (threshold : ℚ) (x s e : Nat) : Option Nat :=
  (List.range' s (e - s)).find? fun y => decide (isBest sd threshold x s e y)

/-- Modelled on the specification text: the candidate row range is `[0, H)`
when no row is tracked, else `[max(0, prevRow - searchWindow),
min(H, prevRow + searchWindow))`. -/
def specRange (sd : SpecGrid) (searchWindow : Nat) : Option Nat → Nat × Nat
  | none => (0, sd.height)
  | some p =>
      ((max 0 ((p : Int) - (searchWindow : Int))).toNat,
        min sd.height (p + searchWindow))

/-- Modelled on the specification text: the whole path, column by column,
updating the tracked row to the chosen entry and resetting it on a missing
entry. -/
def specTrace (sd : SpecGrid) (threshold : ℚ) (searchWindow : Nat) :
    List (Option Nat) :=
  ((List.range sd.width).foldl
    (fun (acc : List (Option Nat) × Option Nat) x =>
      let r := specRange sd searchWindow acc.2
      let best := specPick sd threshold x r.1 r.2
      (acc.1 ++ [best], best))
    ([], none)).1

/-- The two range computations agree. -/
theorem nextRange_eq_specRange (sd : SpecGrid) (searchWindow : Nat)
    (o : Option Nat) : nextRange sd searchWindow o = specRange sd searchWindow o := by
  cases o with
  | none => rfl
  | some p =>
      simp only [nextRange, specRange]
      have : ((p : Int) - (searchWindow : Int)).toNat =
          (max 0 ((p : Int) - (searchWindow : Int))).toNat := by omega
      rw [this]

/-- Scan step at a non-candidate value. -/
theorem scanStep_of_le (sd : SpecGrid) (t : ℚ) (x : Nat)
    (acc : Option Nat × ℚ) (y : Nat) (h : ¬ sd.val y x > t) :
    scanStep sd t x acc y = acc := by
  unfold scanStep
  rw [if_neg h]

/-- Scan step at a candidate value beating the current maximum. -/
theorem scanStep_of_gt (sd : SpecGrid) (t : ℚ) (x : Nat)
    (acc : Option Nat × ℚ) (y : Nat) (h : sd.val y x > t)
    (h2 : sd.val y x > acc.2) :
    scanStep sd t x acc y = (some y, sd.val y x) := by
  unfold scanStep
  rw [if_pos h]
  simp only
  rw [if_pos h2]

/-- Scan step at a candidate value not beating the current maximum. -/
theorem scanStep_of_not_gt (sd : SpecGrid) (t : ℚ) (x : Nat)
    (acc : Option Nat × ℚ) (y : Nat) (h : sd.val y x > t)
    (h2 : ¬ sd.val y x > acc.2) :
    scanStep sd t x acc y = acc := by
  unfold scanStep
  rw [if_pos h]
  simp only
  rw [if_neg h2]

/-- Unfolding the scan by its last visited row. -/
theorem scanColumn_succ (sd : SpecGrid) (t : ℚ) (x s n : Nat) :
    scanColumn sd t x s (s + (n + 1)) =
      scanStep sd t x (scanColumn sd t x s (s + n)) (s + n) := by
  unfold scanColumn
  have h1 : s + (n + 1) - s = n + 1 := by omega
  have h2 : s + n - s = n := by omega
  rw [h1, h2, List.range'_concat, List.foldl_append]
  simp

/-- Full characterization of the inner scan on a grid of non-negative
values: either nothing in the range exceeds the threshold and the scan
yields no row, or it yields the first row attaining the maximal
above-threshold value, together with that value. -/
theorem scanColumn_char (sd : SpecGrid) (t : ℚ) (x s : Nat)
    (hval : ∀ y, 0 ≤ sd.val y x) (n : Nat) :
    (scanColumn sd t x s (s + n) = (none, -1) ∧
      ∀ y, s ≤ y → y < s + n → ¬ sd.val y x > t) ∨
    (∃ y, scanColumn sd t x s (s + n) = (some y, sd.val y x) ∧
      s ≤ y ∧ y < s + n ∧ sd.val y x > t ∧
      ∀ z, s ≤ z → z < s + n → sd.val z x > t →
        sd.val z x ≤ sd.val y x ∧ (sd.val z x = sd.val y x → y ≤ z)) := by
  induction n with
  | zero =>
      left
      constructor
      · unfold scanColumn
        have h0 : s + 0 - s = 0 := by omega
        rw [h0]
        rfl
      · intro y h1 h2
        omega
  | succ n ih =>
      rw [scanColumn_succ]
      rcases ih with ⟨heq, hnone⟩ | ⟨y, heq, hy1, hy2, hgt, hmax⟩
      · rw [heq]
        by_cases hc : sd.val (s + n) x > t
        · right
          refine ⟨s + n, ?_, by omega, by omega, hc, ?_⟩
          · rw [scanStep_of_gt sd t x (none, -1) (s + n) hc
              (lt_of_lt_of_le (by norm_num) (hval (s + n)))]
          · intro z hz1 hz2 hzv
            rcases Nat.lt_or_ge z (s + n) with hz | hz
            · exact absurd hzv (hnone z hz1 hz)
            · have : z = s + n := by omega
              subst this
              exact ⟨le_refl _, fun _ => le_refl _⟩
        · left
          rw [scanStep_of_le sd t x (none, -1) (s + n) hc]
          refine ⟨rfl, ?_⟩
          intro z hz1 hz2
          rcases Nat.lt_or_ge z (s + n) with hz | hz
          · exact hnone z hz1 hz
          · have : z = s + n := by omega
            subst this
            exact hc
      · rw [heq]
        by_cases hc : sd.val (s + n) x > t
        · by_cases hbeat : sd.val (s + n) x > sd.val y x
          · right
            refine ⟨s + n, ?_, by omega, by omega, hc, ?_⟩
            · rw [scanStep_of_gt sd t x (some y, sd.val y x) (s + n) hc hbeat]
            · intro z hz1 hz2 hzv
              rcases Nat.lt_or_ge z (s + n) with hz | hz
              · have h := hmax z hz1 hz hzv
                constructor
                · exact le_of_lt (lt_of_le_of_lt h.1 hbeat)
                · intro he
                  exact absurd he (ne_of_lt (lt_of_le_of_lt h.1 hbeat))
              · have : z = s + n := by omega
                subst this
                exact ⟨le_refl _, fun _ => le_refl _⟩
          · right
            refine ⟨y, ?_, hy1, by omega, hgt, ?_⟩
            · rw [scanStep_of_not_gt sd t x (some y, sd.val y x) (s + n) hc hbeat]
            · intro z hz1 hz2 hzv
              rcases Nat.lt_or_ge z (s + n) with hz | hz
              · exact hmax z hz1 hz hzv
              · have : z = s + n := by omega
                subst this
                refine ⟨by exact le_of_not_lt hbeat, ?_⟩
                intro he
                omega
        · right
          refine ⟨y, ?_, hy1, by omega, hgt, ?_⟩
          · rw [scanStep_of_le sd t x (some y, sd.val y x) (s + n) hc]
          · intro z hz1 hz2 hzv
            rcases Nat.lt_or_ge z (s + n) with hz | hz
            · exact hmax z hz1 hz hzv
            · have : z = s + n := by omega
              subst this
              exact absurd hzv hc

end F0

namespace F0

/-- A found row always comes from the scanned range. -/
theorem scanColumn_fst_some_mem (sd : SpecGrid) (t : ℚ) (x s e y : Nat)
    (h : (scanColumn sd t x s e).1 = some y) : s ≤ y ∧ y < e := by
  have aux : ∀ (l : List Nat) (acc : Option Nat × ℚ),
      ((l.foldl (scanStep sd t x) acc).1 = some y) →
      (acc.1 = some y ∨ y ∈ l) := by
    intro l
    induction l with
    | nil => intro acc h; exact Or.inl h
    | cons a l ih =>
        intro acc h
        rw [List.foldl_cons] at h
        rcases ih (scanStep sd t x acc a) h with hh | hh
        · unfold scanStep at hh
          by_cases h1 : sd.val a x > t
          · rw [if_pos h1] at hh
            simp only at hh
            by_cases h2 : sd.val a x > acc.2
            · rw [if_pos h2] at hh
              simp only at hh
              rcases hh with hh
              exact Or.inr (by simp [Option.some.injEq] at hh; simp [hh])
            · rw [if_neg h2] at hh
              exact Or.inl hh
          · rw [if_neg h1] at hh
            exact Or.inl hh
        · exact Or.inr (List.mem_cons_of_mem a hh)
  have := aux (List.range' s (e - s)) (none, -1) h
  rcases this with hh | hh
  · exact absurd hh (by simp)
  · have := List.mem_range'_1.mp hh
    omega

/-- The best row of a range is unique. -/
theorem isBest_unique (sd : SpecGrid) (t : ℚ) (x s e y1 y2 : Nat)
    (h1 : isBest sd t x s e y1) (h2 : isBest sd t x s e y2) : y1 = y2 := by
  obtain ⟨q1, m1⟩ := h1
  obtain ⟨q2, m2⟩ := h2
  have e1 := m1 y2 q2.2.1 q2
  have e2 := m2 y1 q1.2.1 q1
  have hv : sd.val y1 x = sd.val y2 x := le_antisymm e2.1 e1.1
  have ha := e1.2 hv.symm
  have hb := e2.2 hv
  omega

/-- A find over a list whose predicate holds at exactly one member returns
that member. -/
theorem find?_unique {α : Type} {p : α → Bool} {l : List α} {a : α}
    (ha : a ∈ l) (hpa : p a = true)
    (huniq : ∀ b ∈ l, p b = true → b = a) : l.find? p = some a := by
  induction l with
  | nil => exact absurd ha (List.not_mem_nil a)
  | cons b l ih =>
      by_cases hb : p b = true
      · rw [List.find?_cons_of_pos l hb]
        rw [huniq b (List.mem_cons_self b l) hb]
      · rw [List.find?_cons_of_neg l (by simp [hb])]
        rcases List.mem_cons.mp ha with rfl | ha2
        · exact absurd hpa hb
        · exact ih ha2 (fun c hc hpc => huniq c (List.mem_cons_of_mem b hc) hpc)

/-- The inner scan computes exactly the specification's pick: the first
row attaining the maximal above-threshold value of the range, none when
no value in the range exceeds the threshold. -/
theorem scanColumn_eq_specPick (sd : SpecGrid) (t : ℚ) (x s e : Nat)
    (hval : ∀ y, 0 ≤ sd.val y x) :
    (scanColumn sd t x s e).1 = specPick sd t x s e := by
  rcases le_or_lt e s with hes | hes
  · have h0 : e - s = 0 := by omega
    unfold scanColumn specPick
    rw [h0]
    rfl
  · have hn : e = s + (e - s) := by omega
    rcases scanColumn_char sd t x s hval (e - s) with ⟨heq, hnone⟩ | hsome
    · rw [← hn] at heq hnone
      rw [heq]
      unfold specPick
      symm
      rw [List.find?_eq_none]
      intro z hz
      have hzr := List.mem_range'_1.mp hz
      simp only [decide_eq_true_eq]
      intro hbest
      exact absurd hbest.1.2.2 (hnone z (by omega) (by omega))
    · obtain ⟨y, heq, hy1, hy2, hgt, hmax⟩ := hsome
      rw [← hn] at heq hy2 hmax
      rw [heq]
      unfold specPick
      symm
      have hbest : isBest sd t x s e y := by
        refine ⟨⟨hy1, hy2, hgt⟩, ?_⟩
        intro z hz hq
        exact hmax z hq.1 hq.2.1 hq.2.2
      apply find?_unique (List.mem_range'_1.mpr (by omega))
        (by simp only [decide_eq_true_eq]; exact hbest)
      intro b hb hpb
      exact isBest_unique sd t x s e b y (by simpa using hpb) hbest

/-- C2: on a normalized intensity grid the path tracer computes exactly the
specified behaviour: per column, the candidate range is the full height
when no row is tracked, else the window around the tracked row clipped to
the grid; the entry is the smallest row of the range maximizing the value
among cells strictly above the threshold, and the tracked row becomes that
entry; when no cell of the range exceeds the threshold the entry is none
and tracking resets. -/
theorem c2_trace_follows_spec (sd : SpecGrid) (threshold : ℚ)
    (maxJump searchWindow : Nat)
    (hval : ∀ y x, 0 ≤ sd.val y x ∧ sd.val y x ≤ 1) :
    runCVAlgorithm sd threshold maxJump searchWindow =
      specTrace sd threshold searchWindow := by
  unfold runCVAlgorithm specTrace
  congr 1
  apply List.foldl_ext
  intro acc x _
  simp only
  rw [nextRange_eq_specRange]
  rw [scanColumn_eq_specPick sd threshold x _ _ (fun y => (hval y x).1)]

/-- Concrete fixture grid for the tracer witnesses: value 1 on row 1,
value 0 elsewhere, on a 2 x 3 grid. -/
def sdFix : SpecGrid :=
  { width := 2, height := 3, val := fun y _ => if y = 1 then 1 else 0 }

/-- Witness for C2 on the fixture grid. -/
theorem c2_trace_follows_spec_witness :
    (∀ y x, 0 ≤ sdFix.val y x ∧ sdFix.val y x ≤ 1) ∧
    runCVAlgorithm sdFix (1/2) 7 1 = specTrace sdFix (1/2) 1 := by
  have hval : ∀ y x, 0 ≤ sdFix.val y x ∧ sdFix.val y x ≤ 1 := by
    intro y x
    unfold sdFix
    simp only
    by_cases h : y = 1 <;> simp [h]
  exact ⟨hval, c2_trace_follows_spec sdFix (1/2) 7 1 hval⟩

end F0

namespace F0

/-- Invariant of the column fold: entries of the accumulated path at
consecutive indices that are both present differ by at most the window,
and the tracked row is the last entry. -/
theorem trace_fold_adj (sd : SpecGrid) (t : ℚ) (w : Nat) (cols : List Nat) :
    ∀ acc : List (Option Nat) × Option Nat,
      (∀ (i a b : Nat), acc.1[i]? = some (some a) → acc.1[i + 1]? = some (some b) →
        ((a : Int) - (b : Int)).natAbs ≤ w) →
      ((acc.1 = [] ∧ acc.2 = none) ∨ acc.1.getLast? = some acc.2) →
      ((∀ (i a b : Nat),
        (cols.foldl (fun (acc : List (Option Nat) × Option Nat) x =>
          let r := nextRange sd w acc.2
          let best := (scanColumn sd t x r.1 r.2).1
          (acc.1 ++ [best], best)) acc).1[i]? = some (some a) →
        (cols.foldl (fun (acc : List (Option Nat) × Option Nat) x =>
          let r := nextRange sd w acc.2
          let best := (scanColumn sd t x r.1 r.2).1
          (acc.1 ++ [best], best)) acc).1[i + 1]? = some (some b) →
        ((a : Int) - (b : Int)).natAbs ≤ w) ∧
      (((cols.foldl (fun (acc : List (Option Nat) × Option Nat) x =>
          let r := nextRange sd w acc.2
          let best := (scanColumn sd t x r.1 r.2).1
          (acc.1 ++ [best], best)) acc).1 = [] ∧
        (cols.foldl (fun (acc : List (Option Nat) × Option Nat) x =>
          let r := nextRange sd w acc.2
          let best := (scanColumn sd t x r.1 r.2).1
          (acc.1 ++ [best], best)) acc).2 = none) ∨
        (cols.foldl (fun (acc : List (Option Nat) × Option Nat) x =>
          let r := nextRange sd w acc.2
          let best := (scanColumn sd t x r.1 r.2).1
          (acc.1 ++ [best], best)) acc).1.getLast? =
          some (cols.foldl (fun (acc : List (Option Nat) × Option Nat) x =>
            let r := nextRange sd w acc.2
            let best := (scanColumn sd t x r.1 r.2).1
            (acc.1 ++ [best], best)) acc).2)) := by
  induction cols with
  | nil => intro acc h1 h2; exact ⟨h1, h2⟩
  | cons c cols ih =>
      intro acc hadj hlast
      rw [List.foldl_cons]
      apply ih
      · -- adjacency for the extended accumulator
        intro i a b h1 h2
        simp only at h1 h2
        rcases Nat.lt_trichotomy (i + 1) acc.1.length with hlen | hlen | hlen
        · rw [List.getElem?_append_left (by omega)] at h1
          rw [List.getElem?_append_left hlen] at h2
          exact hadj i a b h1 h2
        · -- the junction pair: last of the old path and the new entry
          rw [List.getElem?_append_left (by omega)] at h1
          have hbest : ((scanColumn sd t c (nextRange sd w acc.2).1
              (nextRange sd w acc.2).2).1) = some b := by
            have := List.getElem?_concat_length acc.1
              ((scanColumn sd t c (nextRange sd w acc.2).1
                (nextRange sd w acc.2).2).1)
            rw [← hlen] at this
            rw [this] at h2
            exact Option.some.inj h2
          have hacc2 : acc.2 = some a := by
            rcases hlast with ⟨hnil, _⟩ | hl
            · rw [hnil] at h1
              simp at h1
            · rw [List.getLast?_eq_getElem?] at hl
              have : acc.1.length - 1 = i := by omega
              rw [this] at hl
              rw [h1] at hl
              exact (Option.some.inj hl).symm
          rw [hacc2] at hbest
          have hmem := scanColumn_fst_some_mem sd t c _ _ b hbest
          simp only [nextRange] at hmem
          omega
        · have : (acc.1 ++ [(scanColumn sd t c (nextRange sd w acc.2).1
              (nextRange sd w acc.2).2).1]).length ≤ i + 1 := by
            simp
            omega
          rw [List.getElem?_eq_none this] at h2
          exact absurd h2 (by simp)
      · right
        simp only
        exact List.getLast?_concat acc.1

/-- C9: two consecutive present entries of the traced path differ by at
most the search window. -/
theorem c9_consecutive_window (sd : SpecGrid) (threshold : ℚ)
    (maxJump searchWindow : Nat) (hw : 0 < searchWindow) (x r1 r2 : Nat)
    (h1 : (runCVAlgorithm sd threshold maxJump searchWindow)[x]? =
      some (some r1))
    (h2 : (runCVAlgorithm sd threshold maxJump searchWindow)[x + 1]? =
      some (some r2)) :
    ((r1 : Int) - (r2 : Int)).natAbs ≤ searchWindow := by
  unfold runCVAlgorithm at h1 h2
  have h := (trace_fold_adj sd threshold searchWindow (List.range sd.width)
    ([], none) (by intro i a b hh1 hh2; simp at hh1) (Or.inl ⟨rfl, rfl⟩)).1
  exact h x r1 r2 h1 h2

/-- Witness for C9 on the fixture grid. -/
theorem c9_consecutive_window_witness :
    0 < 1 ∧ (runCVAlgorithm sdFix 0 7 1)[0]? = some (some 1) ∧
    (runCVAlgorithm sdFix 0 7 1)[0 + 1]? = some (some 1) ∧
    ((1 : Int) - (1 : Int)).natAbs ≤ 1 := by
  have h1 : (runCVAlgorithm sdFix 0 7 1)[0]? = some (some 1) := by decide
  have h2 : (runCVAlgorithm sdFix 0 7 1)[0 + 1]? = some (some 1) := by decide
  exact ⟨by decide, h1, h2,
    c9_consecutive_window sdFix 0 7 1 (by decide) 0 1 1 h1 h2⟩

end F0

namespace MelCanny

/-- Foreground cells of the eroded diagonal test mask: a width-2 diagonal
from row `a` down to row 102 with a stabilising tail pixel at (104, 103). -/
def diagCells (a : Nat) : List (Nat × Nat) :=
  ((List.range' a (103 - a)).flatMap fun y => [(y, y), (y + 1, y)]) ++
    [(104, 103)]

/-- The eroded diagonal test mask on a 106 x 105 grid. -/
def diagMask (a : Nat) : Grid := ofCells 106 105 (diagCells a)

/-- Cell-level description of the diagonal mask. -/
def diagOn (a x y : Nat) : Prop :=
  (a ≤ y ∧ y ≤ 102 ∧ (x = y ∨ x = y + 1)) ∨ (x = 104 ∧ y = 103)

instance (a x y : Nat) : Decidable (diagOn a x y) := by
  unfold diagOn
  infer_instance

/-- Cell-level description of the diagonal mask after sub-step 1 of a pass:
the tip cell (a, a) is removed as long as the mask had not yet reached its
stable final shape (a = 102). -/
def diagOn2 (a x y : Nat) : Prop :=
  diagOn a x y ∧ ¬ (x = a ∧ y = a ∧ a ≤ 101)

instance (a x y : Nat) : Decidable (diagOn2 a x y) := by
  unfold diagOn2
  infer_instance

/-- Grid dimensions of the test mask. -/
theorem diagMask_width (a : Nat) : (diagMask a).width = 106 := rfl

/-- Grid dimensions of the test mask. -/
theorem diagMask_height (a : Nat) : (diagMask a).height = 105 := rfl

/-- Bit-level characterization of the diagonal mask. -/
theorem diagMask_testBit (a j : Nat) :
    ((diagMask a).data.testBit j = true) ↔ diagOn a (j % 106) (j / 106) := by
  unfold diagMask ofCells
  simp only
  rw [foldl_setPx_mem_all (fun (c : Nat × Nat) => c.2 * 106 + c.1)]
  constructor
  · rintro (h | ⟨c, hc, hidx⟩)
    · rw [Nat.zero_testBit] at h
      exact absurd h (by simp)
    · unfold diagCells at hc
      rcases List.mem_append.mp hc with hc | hc
      · rcases List.mem_flatMap.mp hc with ⟨y, hy, hcy⟩
        have hyr := List.mem_range'_1.mp hy
        have h2 : c = (y, y) ∨ c = (y + 1, y) := by
          simpa using hcy
        rcases h2 with h2 | h2 <;> subst h2 <;> simp only at hidx
        · unfold diagOn
          left
          omega
        · unfold diagOn
          left
          omega
      · have : c = (104, 103) := by simpa using hc
        subst this
        simp only at hidx
        unfold diagOn
        right
        omega
  · intro h
    unfold diagOn at h
    right
    rcases h with ⟨h1, h2, h3 | h3⟩ | ⟨h1, h2⟩
    · refine ⟨(j / 106, j / 106), ?_, by simp; omega⟩
      unfold diagCells
      refine List.mem_append.mpr (Or.inl ?_)
      refine List.mem_flatMap.mpr ⟨j / 106, List.mem_range'_1.mpr (by omega), by simp⟩
    · refine ⟨(j / 106 + 1, j / 106), ?_, by simp; omega⟩
      unfold diagCells
      refine List.mem_append.mpr (Or.inl ?_)
      refine List.mem_flatMap.mpr ⟨j / 106, List.mem_range'_1.mpr (by omega), by simp⟩
    · refine ⟨(104, 103), ?_, by simp; omega⟩
      unfold diagCells
      exact List.mem_append.mpr (Or.inr (by simp))

/-- Pixel-level description of the diagonal mask. -/
theorem getPx_diagMask_at (a x0 y0 : Nat) (hx : x0 < 106) :
    getPx (diagMask a) (y0 * 106 + x0) = if diagOn a x0 y0 then 1 else 0 := by
  have hm : (y0 * 106 + x0) % 106 = x0 := by omega
  have hd : (y0 * 106 + x0) / 106 = y0 := by omega
  by_cases h : diagOn a x0 y0
  · rw [if_pos h, getPx_eq_one, diagMask_testBit, hm, hd]
    exact h
  · rw [if_neg h]
    unfold getPx
    have : (diagMask a).data.testBit (y0 * 106 + x0) = false := by
      rw [← Bool.not_eq_true, diagMask_testBit, hm, hd]
      exact h
    rw [this]
    rfl

end MelCanny

namespace MelCanny

/-- Classification of the sub-step-1 scan on the diagonal mask: exactly the
tip cell (a, a) is marked, and nothing once the diagonal has shrunk to its
stable final shape at a = 102. -/
theorem zsCond1_diag (a x y : Nat) (ha1 : 1 ≤ a) (ha2 : a ≤ 102)
    (hx1 : 1 ≤ x) (hx2 : x ≤ 104) (hy1 : 1 ≤ y) (hy2 : y ≤ 103) :
    (zsCond cond1core (diagMask a) x y = true) ↔ (x = a ∧ y = a ∧ a ≤ 101) := by
  rw [zsCond_eq]
  simp only [diagMask_width]
  rw [show (y-1) * 106 + x + 1 = (y-1) * 106 + (x+1) from rfl]
  rw [show y * 106 + x + 1 = y * 106 + (x+1) from rfl]
  rw [show (y+1) * 106 + x + 1 = (y+1) * 106 + (x+1) from rfl]
  rw [show (y+1) * 106 + x - 1 = (y+1) * 106 + (x-1) from by omega]
  rw [show y * 106 + x - 1 = y * 106 + (x-1) from by omega]
  rw [show (y-1) * 106 + x - 1 = (y-1) * 106 + (x-1) from by omega]
  rw [getPx_diagMask_at a x (y-1) (by omega)]
  rw [getPx_diagMask_at a (x+1) (y-1) (by omega)]
  rw [getPx_diagMask_at a (x+1) y (by omega)]
  rw [getPx_diagMask_at a (x+1) (y+1) (by omega)]
  rw [getPx_diagMask_at a x (y+1) (by omega)]
  rw [getPx_diagMask_at a (x-1) (y+1) (by omega)]
  rw [getPx_diagMask_at a (x-1) y (by omega)]
  rw [getPx_diagMask_at a (x-1) (y-1) (by omega)]
  rw [getPx_diagMask_at a x y (by omega)]
  by_cases hc : diagOn a x y
  · rw [if_pos hc]
    have hcc := hc
    simp only [diagOn] at hcc
    rcases hc with ⟨hay, hy102, hxy | hxy⟩ | ⟨hx104, hy103⟩
    · -- the left cell (y, y) of a diagonal row
      rw [if_neg (show ¬ diagOn a (x+1) (y-1) from by simp only [diagOn]; omega)]
      rw [if_pos (show diagOn a (x+1) y from by simp only [diagOn]; omega)]
      rw [if_neg (show ¬ diagOn a x (y+1) from by simp only [diagOn]; omega)]
      rw [if_neg (show ¬ diagOn a (x-1) (y+1) from by simp only [diagOn]; omega)]
      rw [if_neg (show ¬ diagOn a (x-1) y from by simp only [diagOn]; omega)]
      by_cases h2 : a < y
      · rw [if_pos (show diagOn a x (y-1) from by simp only [diagOn]; omega)]
        rw [if_pos (show diagOn a (x-1) (y-1) from by simp only [diagOn]; omega)]
        by_cases h5 : y ≤ 101
        · rw [if_pos (show diagOn a (x+1) (y+1) from by simp only [diagOn]; omega)]
          exact ⟨fun hh => absurd hh (by decide), fun hh => absurd hh (by omega)⟩
        · rw [if_neg (show ¬ diagOn a (x+1) (y+1) from by simp only [diagOn]; omega)]
          exact ⟨fun hh => absurd hh (by decide), fun hh => absurd hh (by omega)⟩
      · rw [if_neg (show ¬ diagOn a x (y-1) from by simp only [diagOn]; omega)]
        rw [if_neg (show ¬ diagOn a (x-1) (y-1) from by simp only [diagOn]; omega)]
        by_cases h5 : y ≤ 101
        · rw [if_pos (show diagOn a (x+1) (y+1) from by simp only [diagOn]; omega)]
          exact ⟨fun _ => by omega, fun _ => by decide⟩
        · rw [if_neg (show ¬ diagOn a (x+1) (y+1) from by simp only [diagOn]; omega)]
          exact ⟨fun hh => absurd hh (by decide), fun hh => absurd hh (by omega)⟩
    · -- the right cell (y + 1, y) of a diagonal row
      rw [if_neg (show ¬ diagOn a x (y-1) from by simp only [diagOn]; omega)]
      rw [if_neg (show ¬ diagOn a (x+1) (y-1) from by simp only [diagOn]; omega)]
      rw [if_neg (show ¬ diagOn a (x+1) y from by simp only [diagOn]; omega)]
      rw [if_pos (show diagOn a (x+1) (y+1) from by simp only [diagOn]; omega)]
      rw [if_neg (show ¬ diagOn a (x-1) (y+1) from by simp only [diagOn]; omega)]
      rw [if_pos (show diagOn a (x-1) y from by simp only [diagOn]; omega)]
      by_cases h6 : y ≤ 101
      · rw [if_pos (show diagOn a x (y+1) from by simp only [diagOn]; omega)]
        by_cases h9 : a < y
        · rw [if_pos (show diagOn a (x-1) (y-1) from by simp only [diagOn]; omega)]
          exact ⟨fun hh => absurd hh (by decide), fun hh => absurd hh (by omega)⟩
        · rw [if_neg (show ¬ diagOn a (x-1) (y-1) from by simp only [diagOn]; omega)]
          exact ⟨fun hh => absurd hh (by decide), fun hh => absurd hh (by omega)⟩
      · rw [if_neg (show ¬ diagOn a x (y+1) from by simp only [diagOn]; omega)]
        by_cases h9 : a < y
        · rw [if_pos (show diagOn a (x-1) (y-1) from by simp only [diagOn]; omega)]
          exact ⟨fun hh => absurd hh (by decide), fun hh => absurd hh (by omega)⟩
        · rw [if_neg (show ¬ diagOn a (x-1) (y-1) from by simp only [diagOn]; omega)]
          exact ⟨fun hh => absurd hh (by decide), fun hh => absurd hh (by omega)⟩
    · -- the stabilising tail cell (104, 103)
      rw [if_neg (show ¬ diagOn a x (y-1) from by simp only [diagOn]; omega)]
      rw [if_neg (show ¬ diagOn a (x+1) (y-1) from by simp only [diagOn]; omega)]
      rw [if_neg (show ¬ diagOn a (x+1) y from by simp only [diagOn]; omega)]
      rw [if_neg (show ¬ diagOn a (x+1) (y+1) from by simp only [diagOn]; omega)]
      rw [if_neg (show ¬ diagOn a x (y+1) from by simp only [diagOn]; omega)]
      rw [if_neg (show ¬ diagOn a (x-1) (y+1) from by simp only [diagOn]; omega)]
      rw [if_neg (show ¬ diagOn a (x-1) y from by simp only [diagOn]; omega)]
      rw [if_pos (show diagOn a (x-1) (y-1) from by simp only [diagOn]; omega)]
      exact ⟨fun hh => absurd hh (by decide), fun hh => absurd hh (by omega)⟩
  · rw [if_neg hc]
    constructor
    · intro hh
      simp at hh
    · intro hh
      exfalso
      simp only [diagOn] at hc
      omega

end MelCanny

namespace MelCanny

/-- The sub-step-1 marker list of the diagonal mask contains exactly the
flat index of the tip (and nothing at the stable final shape). -/
theorem mem_markers1_diag (a : Nat) (ha1 : 1 ≤ a) (ha2 : a ≤ 102) (i : Nat) :
    (i ∈ collectMarkers cond1core (diagMask a)) ↔
      (i = a * 106 + a ∧ a ≤ 101) := by
  rw [mem_collectMarkers]
  simp only [diagMask_width, diagMask_height]
  constructor
  · rintro ⟨x, y, hx1, hx2, hy1, hy2, hc, rfl⟩
    have h := (zsCond1_diag a x y ha1 ha2 hx1 (by omega) hy1 (by omega)).mp hc
    refine ⟨?_, h.2.2⟩
    omega
  · rintro ⟨rfl, ha101⟩
    refine ⟨a, a, by omega, by omega, by omega, by omega, ?_, rfl⟩
    exact (zsCond1_diag a a a ha1 ha2 (by omega) (by omega) (by omega)
      (by omega)).mpr ⟨rfl, rfl, ha101⟩

/-- Pixel-level description of the grid after sub-step 1 on the diagonal
mask. -/
theorem getPx_stepOne_diag_at (a x0 y0 : Nat) (ha1 : 1 ≤ a) (ha2 : a ≤ 102)
    (hx : x0 < 106) :
    getPx (subStep cond1core (diagMask a)).1 (y0 * 106 + x0) =
      if diagOn2 a x0 y0 then 1 else 0 := by
  rw [getPx_subStep]
  by_cases hm : y0 * 106 + x0 ∈ collectMarkers cond1core (diagMask a)
  · rw [if_pos hm]
    have h := (mem_markers1_diag a ha1 ha2 _).mp hm
    have hnd : ¬ diagOn2 a x0 y0 := by
      simp only [diagOn2, diagOn]
      omega
    rw [if_neg hnd]
  · rw [if_neg hm]
    rw [getPx_diagMask_at a x0 y0 hx]
    have hni : ¬ (y0 * 106 + x0 = a * 106 + a ∧ a ≤ 101) :=
      fun h => hm ((mem_markers1_diag a ha1 ha2 _).mpr h)
    by_cases hd : diagOn a x0 y0
    · have hd2 : diagOn2 a x0 y0 := by
        refine ⟨hd, ?_⟩
        rintro ⟨h1, h2, h3⟩
        exact hni ⟨by omega, h3⟩
      rw [if_pos hd, if_pos hd2]
    · rw [if_neg hd, if_neg (show ¬ diagOn2 a x0 y0 from fun h => hd h.1)]

end MelCanny

namespace MelCanny

/-- Classification of the sub-step-2 scan on the sub-step-1 output of the
diagonal mask: exactly the cell (a + 1, a) is marked, and nothing once the
mask has reached its stable final shape. -/
theorem zsCond2_diag (a x y : Nat) (ha1 : 1 ≤ a) (ha2 : a ≤ 102)
    (hx1 : 1 ≤ x) (hx2 : x ≤ 104) (hy1 : 1 ≤ y) (hy2 : y ≤ 103) :
    (zsCond cond2core (subStep cond1core (diagMask a)).1 x y = true) ↔
      (x = a + 1 ∧ y = a ∧ a ≤ 101) := by
  rw [zsCond_eq]
  simp only [subStep_width, diagMask_width]
  rw [show (y-1) * 106 + x + 1 = (y-1) * 106 + (x+1) from rfl]
  rw [show y * 106 + x + 1 = y * 106 + (x+1) from rfl]
  rw [show (y+1) * 106 + x + 1 = (y+1) * 106 + (x+1) from rfl]
  rw [show (y+1) * 106 + x - 1 = (y+1) * 106 + (x-1) from by omega]
  rw [show y * 106 + x - 1 = y * 106 + (x-1) from by omega]
  rw [show (y-1) * 106 + x - 1 = (y-1) * 106 + (x-1) from by omega]
  rw [getPx_stepOne_diag_at a x (y-1) ha1 ha2 (by omega)]
  rw [getPx_stepOne_diag_at a (x+1) (y-1) ha1 ha2 (by omega)]
  rw [getPx_stepOne_diag_at a (x+1) y ha1 ha2 (by omega)]
  rw [getPx_stepOne_diag_at a (x+1) (y+1) ha1 ha2 (by omega)]
  rw [getPx_stepOne_diag_at a x (y+1) ha1 ha2 (by omega)]
  rw [getPx_stepOne_diag_at a (x-1) (y+1) ha1 ha2 (by omega)]
  rw [getPx_stepOne_diag_at a (x-1) y ha1 ha2 (by omega)]
  rw [getPx_stepOne_diag_at a (x-1) (y-1) ha1 ha2 (by omega)]
  rw [getPx_stepOne_diag_at a x y ha1 ha2 (by omega)]
  by_cases hc : diagOn2 a x y
  · rw [if_pos hc]
    rcases hc with ⟨⟨hay, hy102, hxy | hxy⟩ | ⟨hx104, hy103⟩, hni⟩
    · -- the left cell (y, y) of a diagonal row
      rw [if_neg (show ¬ diagOn2 a (x+1) (y-1) from by simp only [diagOn2, diagOn]; omega)]
      rw [if_pos (show diagOn2 a (x+1) y from by simp only [diagOn2, diagOn]; omega)]
      rw [if_neg (show ¬ diagOn2 a x (y+1) from by simp only [diagOn2, diagOn]; omega)]
      rw [if_neg (show ¬ diagOn2 a (x-1) (y+1) from by simp only [diagOn2, diagOn]; omega)]
      rw [if_neg (show ¬ diagOn2 a (x-1) y from by simp only [diagOn2, diagOn]; omega)]
      by_cases h2 : a < y
      · rw [if_pos (show diagOn2 a x (y-1) from by simp only [diagOn2, diagOn]; omega)]
        by_cases h5 : y ≤ 101
        · rw [if_pos (show diagOn2 a (x+1) (y+1) from by simp only [diagOn2, diagOn]; omega)]
          by_cases h9 : a + 1 < y
          · rw [if_pos (show diagOn2 a (x-1) (y-1) from by simp only [diagOn2, diagOn]; omega)]
            exact ⟨fun hh => absurd hh (by decide), fun hh => absurd hh (by omega)⟩
          · rw [if_neg (show ¬ diagOn2 a (x-1) (y-1) from by simp only [diagOn2, diagOn]; omega)]
            exact ⟨fun hh => absurd hh (by decide), fun hh => absurd hh (by omega)⟩
        · rw [if_neg (show ¬ diagOn2 a (x+1) (y+1) from by simp only [diagOn2, diagOn]; omega)]
          by_cases h9 : a + 1 < y
          · rw [if_pos (show diagOn2 a (x-1) (y-1) from by simp only [diagOn2, diagOn]; omega)]
            exact ⟨fun hh => absurd hh (by decide), fun hh => absurd hh (by omega)⟩
          · rw [if_neg (show ¬ diagOn2 a (x-1) (y-1) from by simp only [diagOn2, diagOn]; omega)]
            exact ⟨fun hh => absurd hh (by decide), fun hh => absurd hh (by omega)⟩
      · rw [if_neg (show ¬ diagOn2 a x (y-1) from by simp only [diagOn2, diagOn]; omega)]
        rw [if_neg (show ¬ diagOn2 a (x+1) (y+1) from by simp only [diagOn2, diagOn]; omega)]
        rw [if_neg (show ¬ diagOn2 a (x-1) (y-1) from by simp only [diagOn2, diagOn]; omega)]
        exact ⟨fun hh => absurd hh (by decide), fun hh => absurd hh (by omega)⟩
    · -- the right cell (y + 1, y) of a diagonal row
      rw [if_neg (show ¬ diagOn2 a x (y-1) from by simp only [diagOn2, diagOn]; omega)]
      rw [if_neg (show ¬ diagOn2 a (x+1) (y-1) from by simp only [diagOn2, diagOn]; omega)]
      rw [if_neg (show ¬ diagOn2 a (x+1) y from by simp only [diagOn2, diagOn]; omega)]
      rw [if_pos (show diagOn2 a (x+1) (y+1) from by simp only [diagOn2, diagOn]; omega)]
      rw [if_neg (show ¬ diagOn2 a (x-1) (y+1) from by simp only [diagOn2, diagOn]; omega)]
      by_cases hya : a < y
      · rw [if_pos (show diagOn2 a (x-1) y from by simp only [diagOn2, diagOn]; omega)]
        rw [if_pos (show diagOn2 a (x-1) (y-1) from by simp only [diagOn2, diagOn]; omega)]
        by_cases h6 : y ≤ 101
        · rw [if_pos (show diagOn2 a x (y+1) from by simp only [diagOn2, diagOn]; omega)]
          exact ⟨fun hh => absurd hh (by decide), fun hh => absurd hh (by omega)⟩
        · rw [if_neg (show ¬ diagOn2 a x (y+1) from by simp only [diagOn2, diagOn]; omega)]
          exact ⟨fun hh => absurd hh (by decide), fun hh => absurd hh (by omega)⟩
      · rw [if_neg (show ¬ diagOn2 a (x-1) (y-1) from by simp only [diagOn2, diagOn]; omega)]
        by_cases ha101 : a ≤ 101
        · rw [if_neg (show ¬ diagOn2 a (x-1) y from by simp only [diagOn2, diagOn]; omega)]
          rw [if_pos (show diagOn2 a x (y+1) from by simp only [diagOn2, diagOn]; omega)]
          exact ⟨fun _ => by omega, fun _ => by decide⟩
        · rw [if_pos (show diagOn2 a (x-1) y from by simp only [diagOn2, diagOn]; omega)]
          rw [if_neg (show ¬ diagOn2 a x (y+1) from by simp only [diagOn2, diagOn]; omega)]
          exact ⟨fun hh => absurd hh (by decide), fun hh => absurd hh (by omega)⟩
    · -- the stabilising tail cell (104, 103)
      rw [if_neg (show ¬ diagOn2 a x (y-1) from by simp only [diagOn2, diagOn]; omega)]
      rw [if_neg (show ¬ diagOn2 a (x+1) (y-1) from by simp only [diagOn2, diagOn]; omega)]
      rw [if_neg (show ¬ diagOn2 a (x+1) y from by simp only [diagOn2, diagOn]; omega)]
      rw [if_neg (show ¬ diagOn2 a (x+1) (y+1) from by simp only [diagOn2, diagOn]; omega)]
      rw [if_neg (show ¬ diagOn2 a x (y+1) from by simp only [diagOn2, diagOn]; omega)]
      rw [if_neg (show ¬ diagOn2 a (x-1) (y+1) from by simp only [diagOn2, diagOn]; omega)]
      rw [if_neg (show ¬ diagOn2 a (x-1) y from by simp only [diagOn2, diagOn]; omega)]
      rw [if_pos (show diagOn2 a (x-1) (y-1) from by simp only [diagOn2, diagOn]; omega)]
      exact ⟨fun hh => absurd hh (by decide), fun hh => absurd hh (by omega)⟩
  · rw [if_neg hc]
    constructor
    · intro hh
      simp at hh
    · intro hh
      exfalso
      simp only [diagOn2, diagOn] at hc
      omega

end MelCanny

namespace MelCanny

/-- Grids with equal fields are equal. -/
theorem grid_ext {g1 g2 : Grid} (hw : g1.width = g2.width)
    (hh : g1.height = g2.height) (hd : g1.data = g2.data) : g1 = g2 := by
  cases g1
  cases g2
  simp_all

/-- Equal pixel reads give equal bits. -/
theorem testBit_eq_of_getPx_eq {g1 g2 : Grid} {i : Nat}
    (h : getPx g1 i = getPx g2 i) :
    g1.data.testBit i = g2.data.testBit i := by
  unfold getPx at h
  cases h1 : g1.data.testBit i <;> cases h2 : g2.data.testBit i <;>
    rw [h1, h2] at h <;> simp_all

/-- The sub-step-2 marker list on the sub-step-1 output of the diagonal
mask contains exactly the flat index of (a + 1, a). -/
theorem mem_markers2_diag (a : Nat) (ha1 : 1 ≤ a) (ha2 : a ≤ 102) (i : Nat) :
    (i ∈ collectMarkers cond2core (subStep cond1core (diagMask a)).1) ↔
      (i = a * 106 + (a + 1) ∧ a ≤ 101) := by
  rw [mem_collectMarkers]
  simp only [subStep_width, subStep_height, diagMask_width, diagMask_height]
  constructor
  · rintro ⟨x, y, hx1, hx2, hy1, hy2, hc, rfl⟩
    have h := (zsCond2_diag a x y ha1 ha2 hx1 (by omega) hy1 (by omega)).mp hc
    refine ⟨?_, h.2.2⟩
    omega
  · rintro ⟨rfl, ha101⟩
    refine ⟨a + 1, a, by omega, by omega, by omega, by omega, ?_, rfl⟩
    exact (zsCond2_diag a (a + 1) a ha1 ha2 (by omega) (by omega) (by omega)
      (by omega)).mpr ⟨rfl, rfl, ha101⟩

/-- One full pass erodes the diagonal mask by exactly one row. -/
theorem zsPass_diag (a : Nat) (ha1 : 1 ≤ a) (ha101 : a ≤ 101) :
    zsPass (diagMask a) = (diagMask (a + 1), true) := by
  have ha2 : a ≤ 102 := by omega
  have hne : a * 106 + a ∈ collectMarkers cond1core (diagMask a) :=
    (mem_markers1_diag a ha1 ha2 _).mpr ⟨rfl, ha101⟩
  have hflag1 : (subStep cond1core (diagMask a)).2 = true := by
    rw [subStep_snd]
    cases e : (collectMarkers cond1core (diagMask a)).isEmpty
    · rfl
    · exact absurd (List.isEmpty_iff.mp e ▸ hne) (List.not_mem_nil _)
  have hgrid : (subStep cond2core (subStep cond1core (diagMask a)).1).1 =
      diagMask (a + 1) := by
    refine grid_ext rfl rfl ?_
    apply Nat.eq_of_testBit_eq
    intro j
    have hj : j = (j / 106) * 106 + (j % 106) := by omega
    have hx : j % 106 < 106 := by omega
    apply testBit_eq_of_getPx_eq
    rw [hj]
    rw [getPx_subStep, getPx_diagMask_at (a + 1) (j % 106) (j / 106) hx]
    by_cases hm : (j / 106) * 106 + (j % 106) ∈
        collectMarkers cond2core (subStep cond1core (diagMask a)).1
    · rw [if_pos hm]
      have h := (mem_markers2_diag a ha1 ha2 _).mp hm
      rw [if_neg (show ¬ diagOn (a + 1) (j % 106) (j / 106) from by
        simp only [diagOn]; omega)]
    · rw [if_neg hm]
      rw [getPx_stepOne_diag_at a (j % 106) (j / 106) ha1 ha2 hx]
      have hni : ¬ ((j / 106) * 106 + (j % 106) = a * 106 + (a + 1) ∧ a ≤ 101) :=
        fun h => hm ((mem_markers2_diag a ha1 ha2 _).mpr h)
      by_cases hd : diagOn2 a (j % 106) (j / 106)
      · have hd2 := hd
        simp only [diagOn2, diagOn] at hd2
        rw [if_pos hd, if_pos (show diagOn (a + 1) (j % 106) (j / 106) from by
          simp only [diagOn]; omega)]
      · have hd2 := hd
        simp only [diagOn2, diagOn] at hd2
        rw [if_neg hd, if_neg (show ¬ diagOn (a + 1) (j % 106) (j / 106) from by
          simp only [diagOn]; omega)]
  have e : zsPass (diagMask a) =
      ((subStep cond2core (subStep cond1core (diagMask a)).1).1,
        (subStep cond1core (diagMask a)).2 ||
          (subStep cond2core (subStep cond1core (diagMask a)).1).2) := rfl
  rw [e, hgrid, hflag1, Bool.true_or]

/-- The stable final shape is a fixed point of the pass. -/
theorem zsPass_diag_stable : zsPass (diagMask 102) = (diagMask 102, false) := by
  have h1 : collectMarkers cond1core (diagMask 102) = [] := by
    rw [List.eq_nil_iff_forall_not_mem]
    intro i hi
    have := (mem_markers1_diag 102 (by omega) (by omega) i).mp hi
    omega
  have h2 : collectMarkers cond2core (subStep cond1core (diagMask 102)).1 = [] := by
    rw [List.eq_nil_iff_forall_not_mem]
    intro i hi
    have := (mem_markers2_diag 102 (by omega) (by omega) i).mp hi
    omega
  have hflag : (zsPass (diagMask 102)).2 = false := by
    rw [zsPass_snd_eq, h1, h2]
    rfl
  exact zsPass_of_not_removed _ hflag

end MelCanny

namespace MelCanny

/-- Running the loop on the diagonal mask erodes one row per pass as long
as the budget keeps the mask away from its stable shape. -/
theorem thinFuel_diag (f : Nat) :
    ∀ a iterCount, 1 ≤ a → a + f ≤ 102 →
      thinFuel f (diagMask a) iterCount = (diagMask (a + f), iterCount + f) := by
  induction f with
  | zero => intro a it _ _; rfl
  | succ f ih =>
      intro a it ha hf
      have e : thinFuel (f + 1) (diagMask a) it =
          thinFuel f (diagMask (a + 1)) (it + 1) := by
        rw [thinFuel_succ, zsPass_diag a ha (by omega)]
        rfl
      rw [e]
      have h2 := ih (a + 1) (it + 1) (by omega) (by omega)
      rw [show a + 1 + f = a + (f + 1) from by omega,
        show it + 1 + f = it + (f + 1) from by omega] at h2
      exact h2

/-- The thinning run on the full diagonal hits the iteration cap with the
erosion still in progress. -/
theorem thin_diag1 : thin (diagMask 1) = (diagMask 101, 100) := by
  have h := thinFuel_diag 100 1 0 (by omega) (by omega)
  simpa [thin] using h

/-- Re-running the thinning on the capped output erodes one more row and
then converges. -/
theorem thin_diag101 : thin (diagMask 101) = (diagMask 102, 2) := by
  show thinFuel 100 (diagMask 101) 0 = (diagMask 102, 2)
  have h1 := thinFuel_succ 99 (diagMask 101) 0
  rw [zsPass_diag 101 (by omega) (by omega)] at h1
  simp only [Prod.fst, Prod.snd, if_true] at h1
  have h2 := thinFuel_succ 98 (diagMask 102) 1
  rw [zsPass_diag_stable] at h2
  simp only [Prod.fst, Prod.snd] at h2
  rw [if_neg (show ¬ (false = true) from by simp)] at h2
  exact h1.trans h2

/-- An exit of the loop before the budget is exhausted means the final pass
removed nothing, so the result grid is a fixed point of the pass. -/
theorem thinFuel_converged (f : Nat) :
    ∀ g iterCount, (thinFuel f g iterCount).2 < iterCount + f →
      zsPass (thinFuel f g iterCount).1 = ((thinFuel f g iterCount).1, false) := by
  induction f with
  | zero =>
      intro g it h
      rw [thinFuel_zero] at h
      exact absurd h (by omega)
  | succ f ih =>
      intro g it h
      rw [thinFuel_succ] at h ⊢
      by_cases hp : (zsPass g).2
      · rw [if_pos hp] at h ⊢
        exact ih (zsPass g).1 (it + 1) (by omega)
      · rw [if_neg hp] at h ⊢
        simp only
        have hz := zsPass_of_not_removed g (by simpa using hp)
        rw [show (zsPass g).1 = g from by rw [hz]]
        exact hz

end MelCanny

namespace MelCanny

/-- Counterexample to C4: on the length-102 width-2 diagonal the thinning
loop hits the 100-iteration cap with the erosion still in progress, so
re-running the thinning on its own output removes two more pixels and the
output grids differ. -/
theorem c4_thin_not_idempotent :
    (thin ((thin (diagMask 1)).1)).1 ≠ (thin (diagMask 1)).1 := by
  rw [thin_diag1]
  show (thin (diagMask 101)).1 ≠ diagMask 101
  rw [thin_diag101]
  show diagMask 102 ≠ diagMask 101
  decide

/-- C4 (amended): whenever the thinning loop exits by convergence (the
returned iteration count is below the 100-iteration cap), its output is a
fixed point: thinning the output returns the same grid. -/
theorem c4_thin_fixed_point_of_convergence (m : Grid)
    (h : (thin m).2 < 100) :
    (thin ((thin m).1)).1 = (thin m).1 := by
  have hc : zsPass (thin m).1 = ((thin m).1, false) :=
    thinFuel_converged 100 m 0 (by simpa [thin] using h)
  have e2 := thinFuel_succ 99 ((thin m).1) 0
  rw [hc] at e2
  simp only [Prod.fst, Prod.snd] at e2
  rw [if_neg (show ¬ (false = true) from by simp)] at e2
  show (thinFuel 100 ((thin m).1) 0).1 = (thin m).1
  rw [e2]

/-- Witness for the amended C4 at a concrete converging mask. -/
theorem c4_thin_fixed_point_of_convergence_witness :
    (thin (ofCells 4 4 [(1, 1), (2, 1), (2, 2), (1, 2)])).2 < 100 ∧
    (thin ((thin (ofCells 4 4 [(1, 1), (2, 1), (2, 2), (1, 2)])).1)).1 =
      (thin (ofCells 4 4 [(1, 1), (2, 1), (2, 2), (1, 2)])).1 :=
  ⟨by decide,
    c4_thin_fixed_point_of_convergence
      (ofCells 4 4 [(1, 1), (2, 1), (2, 2), (1, 2)]) (by decide)⟩

end MelCanny

namespace MelCanny

/-- Modelled on the specification text: the number of 0-to-1 transitions
between consecutive entries of a 0/1 list. -/
def transitions01 : List Nat → Nat
  | p :: q :: rest => (if p = 0 ∧ q = 1 then 1 else 0) + transitions01 (q :: rest)
  | _ => 0

/-- The ordered neighbourhood P2..P9 of an interior pixel (clockwise from
north), as 0/1 pixel values. -/
def neighborList (g : Grid) (x y : Nat) : List Nat :=
  [getPx g ((y-1) * g.width + x), getPx g ((y-1) * g.width + x + 1),
   getPx g (y * g.width + x + 1), getPx g ((y+1) * g.width + x + 1),
   getPx g ((y+1) * g.width + x), getPx g ((y+1) * g.width + x - 1),
   getPx g (y * g.width + x - 1), getPx g ((y-1) * g.width + x - 1)]

/-- Modelled on the specification text: A = number of 0-to-1 transitions in
the cyclic scan P2, P3, ..., P9, P2. -/
def specA (g : Grid) (x y : Nat) : Nat :=
  transitions01 (neighborList g x y ++ [getPx g ((y-1) * g.width + x)])

/-- Modelled on the specification text: B = count of foreground neighbours
among P2..P9. -/
def specB (g : Grid) (x y : Nat) : Nat :=
  List.count 1 (neighborList g x y)

/-- Pixel reads are the 0/1 casts of the backing bits. -/
theorem getPx_eq_toNat (g : Grid) (i : Nat) :
    getPx g i = (g.data.testBit i).toNat := by
  unfold getPx
  cases g.data.testBit i <;> rfl

/-- Finite check: the source arithmetic of sub-step 1 coincides with the
specification's A/B reading on every 0/1 neighbourhood. -/
theorem cond1core_spec : ∀ b2 b3 b4 b5 b6 b7 b8 b9 : Bool,
    (cond1core b2.toNat b3.toNat b4.toNat b5.toNat b6.toNat b7.toNat b8.toNat
        b9.toNat = true) ↔
      (transitions01 ([b2.toNat, b3.toNat, b4.toNat, b5.toNat, b6.toNat,
          b7.toNat, b8.toNat, b9.toNat] ++ [b2.toNat]) = 1 ∧
        2 ≤ List.count 1 [b2.toNat, b3.toNat, b4.toNat, b5.toNat, b6.toNat,
          b7.toNat, b8.toNat, b9.toNat] ∧
        List.count 1 [b2.toNat, b3.toNat, b4.toNat, b5.toNat, b6.toNat,
          b7.toNat, b8.toNat, b9.toNat] ≤ 6 ∧
        b2.toNat * b4.toNat * b6.toNat = 0 ∧
        b4.toNat * b6.toNat * b8.toNat = 0) := by decide

/-- Finite check: the source arithmetic of sub-step 2 coincides with the
specification's A/B reading on every 0/1 neighbourhood. -/
theorem cond2core_spec : ∀ b2 b3 b4 b5 b6 b7 b8 b9 : Bool,
    (cond2core b2.toNat b3.toNat b4.toNat b5.toNat b6.toNat b7.toNat b8.toNat
        b9.toNat = true) ↔
      (transitions01 ([b2.toNat, b3.toNat, b4.toNat, b5.toNat, b6.toNat,
          b7.toNat, b8.toNat, b9.toNat] ++ [b2.toNat]) = 1 ∧
        2 ≤ List.count 1 [b2.toNat, b3.toNat, b4.toNat, b5.toNat, b6.toNat,
          b7.toNat, b8.toNat, b9.toNat] ∧
        List.count 1 [b2.toNat, b3.toNat, b4.toNat, b5.toNat, b6.toNat,
          b7.toNat, b8.toNat, b9.toNat] ≤ 6 ∧
        b2.toNat * b4.toNat * b8.toNat = 0 ∧
        b2.toNat * b6.toNat * b8.toNat = 0) := by decide

/-- Interior coordinates decode marker membership to the sub-step test. -/
theorem mem_collectMarkers_interior
    (c : Nat → Nat → Nat → Nat → Nat → Nat → Nat → Nat → Bool) (g : Grid)
    (x y : Nat) (hx1 : 1 ≤ x) (hx2 : x + 1 < g.width) (hy1 : 1 ≤ y)
    (hy2 : y + 1 < g.height) :
    (y * g.width + x ∈ collectMarkers c g) ↔ zsCond c g x y = true := by
  rw [mem_collectMarkers]
  constructor
  · rintro ⟨x2, y2, h1, h2, h3, h4, hc, heq⟩
    have hxlt : x < g.width := by omega
    have hx2lt : x2 < g.width := by omega
    obtain ⟨hx, hy⟩ := flatIdx_inj hxlt hx2lt heq
    rw [hx, hy]
    exact hc
  · intro hc
    exact ⟨x, y, hx1, by omega, hy1, by omega, hc, rfl⟩

/-- The sub-step test, spelled with the specification's A/B quantities. -/
theorem zsCond1_iff_spec (g : Grid) (x y : Nat) :
    (zsCond cond1core g x y = true) ↔
      (getPx g (y * g.width + x) = 1 ∧ specA g x y = 1 ∧
        2 ≤ specB g x y ∧ specB g x y ≤ 6 ∧
        getPx g ((y-1) * g.width + x) * getPx g (y * g.width + x + 1) *
          getPx g ((y+1) * g.width + x) = 0 ∧
        getPx g (y * g.width + x + 1) * getPx g ((y+1) * g.width + x) *
          getPx g (y * g.width + x - 1) = 0) := by
  rw [zsCond_eq, Bool.and_eq_true, beq_iff_eq]
  unfold specA specB neighborList
  simp only [getPx_eq_toNat]
  exact and_congr Iff.rfl (cond1core_spec _ _ _ _ _ _ _ _)

/-- The sub-step-2 test, spelled with the specification's A/B quantities. -/
theorem zsCond2_iff_spec (g : Grid) (x y : Nat) :
    (zsCond cond2core g x y = true) ↔
      (getPx g (y * g.width + x) = 1 ∧ specA g x y = 1 ∧
        2 ≤ specB g x y ∧ specB g x y ≤ 6 ∧
        getPx g ((y-1) * g.width + x) * getPx g (y * g.width + x + 1) *
          getPx g (y * g.width + x - 1) = 0 ∧
        getPx g ((y-1) * g.width + x) * getPx g ((y+1) * g.width + x) *
          getPx g (y * g.width + x - 1) = 0) := by
  rw [zsCond_eq, Bool.and_eq_true, beq_iff_eq]
  unfold specA specB neighborList
  simp only [getPx_eq_toNat]
  exact and_congr Iff.rfl (cond2core_spec _ _ _ _ _ _ _ _)

end MelCanny

namespace MelCanny

/-- C1: each thinning pass applies exactly the Zhang-Suen two-sub-step
rule.  Sub-step 1 marks an interior pixel iff it is foreground with A = 1,
2 <= B <= 6, P2*P4*P6 = 0 and P4*P6*P8 = 0, where A counts the 0-to-1
transitions of the cyclic scan P2..P9,P2 and B counts the foreground
neighbours; all marked pixels are removed only after the full scan;
sub-step 2 re-scans the updated grid with the same A/B conditions and the
corner conditions P2*P4*P8 = 0 and P2*P6*P8 = 0, removing after its full
scan. -/
theorem c1_zhang_suen_substeps :
    (∀ (g : Grid) (x y : Nat),
      1 ≤ x → x + 1 < g.width → 1 ≤ y → y + 1 < g.height →
      ((y * g.width + x ∈ collectMarkers cond1core g) ↔
        (getPx g (y * g.width + x) = 1 ∧ specA g x y = 1 ∧
          2 ≤ specB g x y ∧ specB g x y ≤ 6 ∧
          getPx g ((y-1) * g.width + x) * getPx g (y * g.width + x + 1) *
            getPx g ((y+1) * g.width + x) = 0 ∧
          getPx g (y * g.width + x + 1) * getPx g ((y+1) * g.width + x) *
            getPx g (y * g.width + x - 1) = 0))) ∧
    (∀ (g : Grid) (i : Nat),
      getPx (subStep cond1core g).1 i =
        if i ∈ collectMarkers cond1core g then 0 else getPx g i) ∧
    (∀ (g : Grid) (x y : Nat),
      1 ≤ x → x + 1 < (subStep cond1core g).1.width →
      1 ≤ y → y + 1 < (subStep cond1core g).1.height →
      ((y * (subStep cond1core g).1.width + x ∈
          collectMarkers cond2core (subStep cond1core g).1) ↔
        (getPx (subStep cond1core g).1
            (y * (subStep cond1core g).1.width + x) = 1 ∧
          specA (subStep cond1core g).1 x y = 1 ∧
          2 ≤ specB (subStep cond1core g).1 x y ∧
          specB (subStep cond1core g).1 x y ≤ 6 ∧
          getPx (subStep cond1core g).1
              ((y-1) * (subStep cond1core g).1.width + x) *
            getPx (subStep cond1core g).1
              (y * (subStep cond1core g).1.width + x + 1) *
            getPx (subStep cond1core g).1
              (y * (subStep cond1core g).1.width + x - 1) = 0 ∧
          getPx (subStep cond1core g).1
              ((y-1) * (subStep cond1core g).1.width + x) *
            getPx (subStep cond1core g).1
              ((y+1) * (subStep cond1core g).1.width + x) *
            getPx (subStep cond1core g).1
              (y * (subStep cond1core g).1.width + x - 1) = 0))) ∧
    (∀ (g : Grid) (i : Nat),
      getPx (zsPass g).1 i =
        if i ∈ collectMarkers cond2core (subStep cond1core g).1 then 0
        else getPx (subStep cond1core g).1 i) := by
  refine ⟨?_, getPx_subStep cond1core, ?_, ?_⟩
  · intro g x y hx1 hx2 hy1 hy2
    rw [mem_collectMarkers_interior cond1core g x y hx1 hx2 hy1 hy2]
    exact zsCond1_iff_spec g x y
  · intro g x y hx1 hx2 hy1 hy2
    rw [mem_collectMarkers_interior cond2core (subStep cond1core g).1 x y
      hx1 hx2 hy1 hy2]
    exact zsCond2_iff_spec (subStep cond1core g).1 x y
  · intro g i
    exact getPx_subStep cond2core (subStep cond1core g).1 i

/-- Witness for C1 at a concrete mask and interior pixel. -/
theorem c1_zhang_suen_substeps_witness :
    1 ≤ 1 ∧
    1 + 1 < (ofCells 4 4 [(1, 1), (2, 1), (2, 2), (1, 2)]).width ∧
    1 + 1 < (ofCells 4 4 [(1, 1), (2, 1), (2, 2), (1, 2)]).height ∧
    ((1 * (ofCells 4 4 [(1, 1), (2, 1), (2, 2), (1, 2)]).width + 1 ∈
        collectMarkers cond1core (ofCells 4 4 [(1, 1), (2, 1), (2, 2), (1, 2)])) ↔
      (getPx (ofCells 4 4 [(1, 1), (2, 1), (2, 2), (1, 2)])
          (1 * (ofCells 4 4 [(1, 1), (2, 1), (2, 2), (1, 2)]).width + 1) = 1 ∧
        specA (ofCells 4 4 [(1, 1), (2, 1), (2, 2), (1, 2)]) 1 1 = 1 ∧
        2 ≤ specB (ofCells 4 4 [(1, 1), (2, 1), (2, 2), (1, 2)]) 1 1 ∧
        specB (ofCells 4 4 [(1, 1), (2, 1), (2, 2), (1, 2)]) 1 1 ≤ 6 ∧
        getPx (ofCells 4 4 [(1, 1), (2, 1), (2, 2), (1, 2)])
            ((1-1) * (ofCells 4 4 [(1, 1), (2, 1), (2, 2), (1, 2)]).width + 1) *
          getPx (ofCells 4 4 [(1, 1), (2, 1), (2, 2), (1, 2)])
            (1 * (ofCells 4 4 [(1, 1), (2, 1), (2, 2), (1, 2)]).width + 1 + 1) *
          getPx (ofCells 4 4 [(1, 1), (2, 1), (2, 2), (1, 2)])
            ((1+1) * (ofCells 4 4 [(1, 1), (2, 1), (2, 2), (1, 2)]).width + 1) = 0 ∧
        getPx (ofCells 4 4 [(1, 1), (2, 1), (2, 2), (1, 2)])
            (1 * (ofCells 4 4 [(1, 1), (2, 1), (2, 2), (1, 2)]).width + 1 + 1) *
          getPx (ofCells 4 4 [(1, 1), (2, 1), (2, 2), (1, 2)])
            ((1+1) * (ofCells 4 4 [(1, 1), (2, 1), (2, 2), (1, 2)]).width + 1) *
          getPx (ofCells 4 4 [(1, 1), (2, 1), (2, 2), (1, 2)])
            (1 * (ofCells 4 4 [(1, 1), (2, 1), (2, 2), (1, 2)]).width + 1 - 1) = 0)) :=
  ⟨by decide, by decide, by decide,
    c1_zhang_suen_substeps.1 (ofCells 4 4 [(1, 1), (2, 1), (2, 2), (1, 2)]) 1 1
      (by decide) (by decide) (by decide) (by decide)⟩

end MelCanny
